import Mathlib

/-!
# inrange: a lazily evaluated integer range

Shallow embedding of `src/inrange.hpp`.

* `counter_t` (`long long int`) is embedded twice. Over `Int` the operators are the source
  read over the mathematical integers. In the 64-bit model (`wrap64`, the names that end in
  `64`) every addition and subtraction wraps around, as the compiled code does, and
  `rangeForArith64` records the exact result of each of them, so that "nothing overflows"
  (`noOverflow64`) can be said of a run. What is claimed of the runs of the loop at large
  is stated of the 64-bit model, for the runs in which nothing overflows.
* `step_t` (`unsigned int`) is embedded as `Nat`; its values are the naturals below `2 ^ 32`.
* The conversion `counter_t(_step_long)` is the coercion `Nat → Int`; it happens before the
  unary minus, which is therefore a negation of a `counter_t`.
* The range-based `for` statement is not terminating for every pair of counters, so it is
  embedded with fuel (`rangeFor`) and as a step relation (`rangeForNext`).
* The constructors keep the names of their classes, `CounterIterator.CounterIterator` and
  `LazyEvaluationList.LazyEvaluationList`; a declaration in one of these two namespaces that
  comes after them names the type in full (`inrange.LazyEvaluationList`).
-/

namespace inrange

/-- The counter of the lazy list: `number` is the current value, `step` the signed step. -/
structure CounterIterator where
  number : Int
  step : Int
deriving DecidableEq, Repr

/-- `CounterIterator &operator++()`: `number += step; return *this;`. The result is the
updated counter (the returned reference aliases the updated object). -/
def CounterIterator.operator_inc (c : CounterIterator) : CounterIterator :=
  { c with number := c.number + c.step }

/-- `counter_t operator*() const`: `return number;`. -/
def CounterIterator.operator_deref (c : CounterIterator) : Int :=
  c.number

/-- `bool operator==(const CounterIterator &another) const`. -/
def CounterIterator.operator_eq (c another : CounterIterator) : Bool :=
  if c.step > 0 then
    xor (decide (c.number - another.number ≥ 0)) (decide (c.number - c.step - another.number > 0))
  else
    xor (decide (c.number - another.number ≤ 0)) (decide (c.number - c.step - another.number < 0))

/-- `bool operator!=(const CounterIterator &another) const`: `return !((*this) == another);`. -/
def CounterIterator.operator_ne (c another : CounterIterator) : Bool :=
  !(c.operator_eq another)

/-- The lazy list: a pair of counters built together by the constructor. -/
structure LazyEvaluationList where
  begin_iter : CounterIterator
  end_iter : CounterIterator
deriving DecidableEq, Repr

/-- `iterator begin() const`: a copy of `begin_iter`. -/
def LazyEvaluationList.begin (l : LazyEvaluationList) : CounterIterator :=
  l.begin_iter

/-- `iterator end() const`: a copy of `end_iter`. -/
def LazyEvaluationList.end_ (l : LazyEvaluationList) : CounterIterator :=
  l.end_iter

/-- `const_iterator &cbegin() const`: a reference to `begin_iter`. -/
def LazyEvaluationList.cbegin (l : LazyEvaluationList) : CounterIterator :=
  l.begin_iter

/-- `const_iterator &cend() const`: a reference to `end_iter`. -/
def LazyEvaluationList.cend (l : LazyEvaluationList) : CounterIterator :=
  l.end_iter

set_option linter.dupNamespace false in
/-- The constructor `CounterIterator(_number, _step)`: `step(_step), number(_number)`. -/
def CounterIterator.CounterIterator (_number _step : Int) : CounterIterator :=
  { number := _number, step := _step }

set_option linter.dupNamespace false in
/-- The constructor `LazyEvaluationList(_begin_num, _end_num, _step_long)`. Both member
initialisers evaluate
`_begin_num <= _end_num ? _step_long : -CounterIterator::counter_t(_step_long)`. -/
def LazyEvaluationList.LazyEvaluationList (_begin_num _end_num : Int) (_step_long : Nat) :
    LazyEvaluationList :=
  { begin_iter := CounterIterator.CounterIterator _begin_num
      (if _begin_num ≤ _end_num then (_step_long : Int) else -(_step_long : Int))
    end_iter := CounterIterator.CounterIterator _end_num
      (if _begin_num ≤ _end_num then (_step_long : Int) else -(_step_long : Int)) }

/-- The builder `in(begin, end, step)`: `return inrange::LazyEvaluationList(begin, end, step);`. -/
def in_ (begin end_ : Int) (step : Nat) : LazyEvaluationList :=
  LazyEvaluationList.LazyEvaluationList begin end_ step

/-- The builder called as `in(begin, end)`: the default argument `step = 1` is supplied. -/
def in_default (begin end_ : Int) : LazyEvaluationList :=
  in_ begin end_ 1

/-- The loop `for (; it != e; ++it) { yield *it; }` of a range-based `for` statement, run
with at most `fuel` evaluations of the loop condition. The result is the list of values read
by `*it` together with the cursor at which `it != e` was false; `none` when the fuel is used
up before that. -/
def rangeFor : Nat → CounterIterator → CounterIterator → Option (List Int × CounterIterator)
  | 0, _, _ => none
  | fuel + 1, it, e =>
    if it.operator_ne e then
      match rangeFor fuel it.operator_inc e with
      | some (vs, stop) => some (it.operator_deref :: vs, stop)
      | none => none
    else
      some ([], it)

/-- The range-based `for` statement over a lazy list: the cursor starts from `begin()` and is
compared with `end()`. -/
def LazyEvaluationList.iterate (fuel : Nat) (l : inrange.LazyEvaluationList) :
    Option (List Int × CounterIterator) :=
  rangeFor fuel l.begin l.end_

/-- One turn of the loop as a relation: `rangeForNext e it2 it1` holds when the loop with
sentinel `e` and cursor `it1` runs its body and continues with cursor `it2`. -/
def rangeForNext (e : CounterIterator) (it2 it1 : CounterIterator) : Prop :=
  it1.operator_ne e = true ∧ it2 = it1.operator_inc

/-! ## The 64-bit model of `counter_t`

The same code with `counter_t` as a 64-bit two's-complement integer whose additions and
subtractions wrap around. It is used to say which results leave the range of `counter_t`. -/

/-- The values of `counter_t` as a 64-bit signed integer: `[-2 ^ 63, 2 ^ 63 - 1]`. -/
def representable64 (x : Int) : Prop :=
  -2 ^ 63 ≤ x ∧ x ≤ 2 ^ 63 - 1

instance (x : Int) : Decidable (representable64 x) := by
  unfold representable64
  infer_instance

/-- The 64-bit two's-complement value of an integer result. -/
def wrap64 (x : Int) : Int :=
  (x + 2 ^ 63) % 2 ^ 64 - 2 ^ 63

/-- `operator++()` in the 64-bit model: `number += step` wraps around. -/
def CounterIterator.operator_inc64 (c : inrange.CounterIterator) : inrange.CounterIterator :=
  { c with number := wrap64 (c.number + c.step) }

/-- The exact result of the addition performed by `operator++()`. -/
def CounterIterator.operator_inc64_arith (c : inrange.CounterIterator) : List Int :=
  [c.number + c.step]

/-- `operator==` in the 64-bit model: each subtraction wraps around;
`number - step - another.number` is `(number - step) - another.number`. -/
def CounterIterator.operator_eq64 (c another : inrange.CounterIterator) : Bool :=
  if c.step > 0 then
    xor (decide (wrap64 (c.number - another.number) ≥ 0))
      (decide (wrap64 (wrap64 (c.number - c.step) - another.number) > 0))
  else
    xor (decide (wrap64 (c.number - another.number) ≤ 0))
      (decide (wrap64 (wrap64 (c.number - c.step) - another.number) < 0))

/-- The exact results of the three subtractions performed by `operator==` in the 64-bit
model: `number - another.number`, `number - step` and `(number - step) - another.number`. -/
def CounterIterator.operator_eq64_arith (c another : inrange.CounterIterator) : List Int :=
  [c.number - another.number, c.number - c.step, wrap64 (c.number - c.step) - another.number]

/-- `operator!=` in the 64-bit model. -/
def CounterIterator.operator_ne64 (c another : inrange.CounterIterator) : Bool :=
  !(c.operator_eq64 another)

/-- The loop of `rangeFor` in the 64-bit model. -/
def rangeFor64 : Nat → CounterIterator → CounterIterator → Option (List Int × CounterIterator)
  | 0, _, _ => none
  | fuel + 1, it, e =>
    if it.operator_ne64 e then
      match rangeFor64 fuel it.operator_inc64 e with
      | some (vs, stop) => some (it.operator_deref :: vs, stop)
      | none => none
    else
      some ([], it)

/-- The arithmetic of the loop in the 64-bit model, run with at most `fuel` evaluations of
the loop condition: the exact results of the additions performed by the advances (first
component) and of the subtractions performed by the comparisons (second component). -/
def rangeForArith64 : Nat → CounterIterator → CounterIterator → List Int × List Int
  | 0, _, _ => ([], [])
  | fuel + 1, it, e =>
    if it.operator_ne64 e then
      (it.operator_inc64_arith ++ (rangeForArith64 fuel it.operator_inc64 e).1,
        it.operator_eq64_arith e ++ (rangeForArith64 fuel it.operator_inc64 e).2)
    else
      ([], it.operator_eq64_arith e)

/-- The range-based `for` statement over a lazy list in the 64-bit model. -/
def LazyEvaluationList.iterate64 (fuel : Nat) (l : inrange.LazyEvaluationList) :
    Option (List Int × CounterIterator) :=
  rangeFor64 fuel l.begin l.end_

/-- The arithmetic of the range-based `for` statement over a lazy list in the 64-bit model. -/
def LazyEvaluationList.iterateArith64 (fuel : Nat) (l : inrange.LazyEvaluationList) :
    List Int × List Int :=
  rangeForArith64 fuel l.begin l.end_

/-- No overflow in the loop over a lazy list, run in the 64-bit model with at most `fuel`
evaluations of the loop condition: the exact result of every addition of its advances and
of every subtraction of its comparisons is a value of `counter_t`. -/
def LazyEvaluationList.noOverflow64 (fuel : Nat) (l : inrange.LazyEvaluationList) : Prop :=
  (∀ a ∈ (l.iterateArith64 fuel).1, representable64 a)
    ∧ (∀ x ∈ (l.iterateArith64 fuel).2, representable64 x)

instance (fuel : Nat) (l : LazyEvaluationList) : Decidable (l.noOverflow64 fuel) := by
  unfold LazyEvaluationList.noOverflow64
  infer_instance

/-! ## Shared lemmas -/

/-- The comparison with a positive step: true on the window `[b, b + t]`. -/
theorem operator_eq_pos (p t b bt : Int) (ht : 0 < t) :
    CounterIterator.operator_eq ⟨p, t⟩ ⟨b, bt⟩ = true ↔ b ≤ p ∧ p ≤ b + t := by
  simp only [CounterIterator.operator_eq, gt_iff_lt, ge_iff_le, if_pos ht]
  by_cases h1 : 0 ≤ p - b <;> by_cases h2 : 0 < p - t - b <;> simp [h1, h2] <;> omega

/-- The comparison with a step that is not positive: true on the window `[b + t, b]`. -/
theorem operator_eq_nonpos (p t b bt : Int) (ht : t ≤ 0) :
    CounterIterator.operator_eq ⟨p, t⟩ ⟨b, bt⟩ = true ↔ b + t ≤ p ∧ p ≤ b := by
  have ht2 : ¬ 0 < t := not_lt.mpr ht
  simp only [CounterIterator.operator_eq, gt_iff_lt, if_neg ht2]
  by_cases h1 : p - b ≤ 0 <;> by_cases h2 : p - t - b < 0 <;> simp [h1, h2] <;> omega

/-- Advancing `k` times adds `k * step` to the number and keeps the step. -/
theorem operator_inc_iterate (k : Nat) (p t : Int) :
    CounterIterator.operator_inc^[k] ⟨p, t⟩ = ⟨p + k * t, t⟩ := by
  induction k generalizing p with
  | zero => simp
  | succ k ih =>
    rw [Function.iterate_succ_apply]
    simp only [CounterIterator.operator_inc]
    rw [ih]
    congr 1
    push_cast
    ring

/-- The values `p, p + t, ..., p + (k - 1) * t`. -/
theorem range_map_succ (k : Nat) (p t : Int) :
    (List.range (k + 1)).map (fun i : Nat => p + i * t)
      = p :: (List.range k).map (fun i : Nat => (p + t) + i * t) := by
  rw [List.range_succ_eq_map, List.map_cons, List.map_map]
  simp only [Nat.cast_zero, zero_mul, add_zero, List.cons.injEq, true_and]
  apply List.map_congr_left
  intro i _
  simp only [Function.comp_apply, Nat.cast_succ]
  ring

/-- The loop run from a cursor that compares unequal to the sentinel for `k` advances and
equal after them: with more than `k` units of fuel it reads the `k` values and stops. -/
theorem rangeFor_of_first_eq (e : CounterIterator) (t : Int) :
    ∀ (k : Nat) (p : Int) (fuel : Nat), k < fuel →
      (∀ j : Nat, j < k → CounterIterator.operator_eq ⟨p + j * t, t⟩ e = false) →
      CounterIterator.operator_eq ⟨p + k * t, t⟩ e = true →
      rangeFor fuel ⟨p, t⟩ e
        = some ((List.range k).map (fun i : Nat => p + i * t), ⟨p + k * t, t⟩) := by
  intro k
  induction k with
  | zero =>
    intro p fuel hf _ heq
    obtain ⟨f, rfl⟩ : ∃ f, fuel = f + 1 := ⟨fuel - 1, by omega⟩
    simp only [Nat.cast_zero, zero_mul, add_zero] at heq
    simp [rangeFor, CounterIterator.operator_ne, heq]
  | succ k ih =>
    intro p fuel hf hne heq
    obtain ⟨f, rfl⟩ : ∃ f, fuel = f + 1 := ⟨fuel - 1, by omega⟩
    have h0 : CounterIterator.operator_eq ⟨p, t⟩ e = false := by
      have := hne 0 (Nat.succ_pos k)
      simpa using this
    have hrec := ih (p + t) f (by omega)
      (fun j hj => by
        have := hne (j + 1) (by omega)
        rw [← this]; congr 2; push_cast; ring)
      (by rw [← heq]; congr 2; push_cast; ring)
    rw [range_map_succ]
    simp only [rangeFor, CounterIterator.operator_ne, h0, Bool.not_false, if_true,
      CounterIterator.operator_inc, CounterIterator.operator_deref]
    rw [hrec]
    simp only [Option.some.injEq, Prod.mk.injEq, true_and]
    congr 1
    push_cast
    ring

/-- The loop run from a cursor that compares unequal to the sentinel for `fuel` advances
uses up its fuel. -/
theorem rangeFor_none_of_ne (e : CounterIterator) (t : Int) :
    ∀ (fuel : Nat) (p : Int),
      (∀ j : Nat, j < fuel → CounterIterator.operator_eq ⟨p + j * t, t⟩ e = false) →
      rangeFor fuel ⟨p, t⟩ e = none := by
  intro fuel
  induction fuel with
  | zero => intro p _; rfl
  | succ f ih =>
    intro p hne
    have h0 : CounterIterator.operator_eq ⟨p, t⟩ e = false := by
      have := hne 0 (Nat.succ_pos f)
      simpa using this
    have hrec := ih (p + t) (fun j hj => by
      have := hne (j + 1) (by omega)
      rw [← this]; congr 2; push_cast; ring)
    simp only [rangeFor, CounterIterator.operator_ne, h0, Bool.not_false, if_true,
      CounterIterator.operator_inc]
    rw [hrec]

/-- The loop as a function of the fuel, when the first advance count at which the cursor
compares equal to the sentinel is `k`. -/
theorem rangeFor_eq_ite (e : CounterIterator) (t : Int) (k : Nat) (p : Int)
    (hne : ∀ j : Nat, j < k → CounterIterator.operator_eq ⟨p + j * t, t⟩ e = false)
    (heq : CounterIterator.operator_eq ⟨p + k * t, t⟩ e = true) (fuel : Nat) :
    rangeFor fuel ⟨p, t⟩ e
      = if k < fuel then some ((List.range k).map (fun i : Nat => p + i * t), ⟨p + k * t, t⟩)
        else none := by
  by_cases hf : k < fuel
  · rw [if_pos hf]
    exact rangeFor_of_first_eq e t k p fuel hf hne heq
  · rw [if_neg hf]
    exact rangeFor_none_of_ne e t fuel p (fun j hj => hne j (by omega))

/-- The number of steps `q = (d + s - 1) / s` needed to cover a distance `d ≥ 0` with steps
of size `s ≥ 1`: `(q - 1) * s < d ≤ q * s`. -/
theorem steps_bounds (d : Int) (s : Nat) (hd : 0 ≤ d) (hs : 1 ≤ s) :
    0 ≤ (d + s - 1) / (s : Int) ∧ d ≤ (d + s - 1) / (s : Int) * s
      ∧ (d + s - 1) / (s : Int) * s < d + s := by
  have hs0 : (0 : Int) < s := by exact_mod_cast hs
  have h1 := Int.ediv_mul_le (d + s - 1) (ne_of_gt hs0)
  have h2 := Int.lt_ediv_add_one_mul_self (d + s - 1) hs0
  have h3 : 0 ≤ (d + s - 1) / (s : Int) := Int.ediv_nonneg (by omega) (le_of_lt hs0)
  refine ⟨h3, ?_, ?_⟩
  · have : ((d + s - 1) / (s : Int) + 1) * s = (d + s - 1) / (s : Int) * s + s := by ring
    omega
  · omega

/-- The number of steps is the ceiling of the quotient of distance and step. -/
theorem steps_eq_ceil (d : Int) (s : Nat) (hd : 0 ≤ d) (hs : 1 ≤ s) :
    (d + s - 1) / (s : Int) = ⌈(d : ℚ) / (s : ℚ)⌉ := by
  obtain ⟨_, h2, h3⟩ := steps_bounds d s hd hs
  have hsq : (0 : ℚ) < (s : ℚ) := by exact_mod_cast hs
  symm
  rw [Int.ceil_eq_iff]
  constructor
  · rw [lt_div_iff₀ hsq]
    have : (((d + s - 1) / (s : Int) * s : Int) : ℚ) < ((d + s : Int) : ℚ) := by exact_mod_cast h3
    push_cast at this
    linarith
  · rw [div_le_iff₀ hsq]
    have : ((d : Int) : ℚ) ≤ (((d + s - 1) / (s : Int) * s : Int) : ℚ) := by exact_mod_cast h2
    push_cast at this
    linarith

/-- Multiples of a positive step are monotone in the multiplier. -/
theorem mul_step_le (j q : Int) (s : Nat) (h : j ≤ q) : j * (s : Int) ≤ q * s :=
  mul_le_mul_of_nonneg_right h (Int.ofNat_nonneg s)

/-- Ascending range: the cursor first compares equal to the sentinel after
`k = (end - begin + s - 1) / s` advances. -/
theorem asc_first_eq (b e : Int) (s k : Nat) (hbe : b ≤ e) (hs : 1 ≤ s)
    (hk : (k : Int) = (e - b + s - 1) / (s : Int)) :
    (∀ j : Nat, j < k → CounterIterator.operator_eq ⟨b + j * (s : Int), s⟩ ⟨e, s⟩ = false)
      ∧ CounterIterator.operator_eq ⟨b + k * (s : Int), s⟩ ⟨e, s⟩ = true := by
  obtain ⟨_, h2, h3⟩ := steps_bounds (e - b) s (by omega) hs
  rw [← hk] at h2 h3
  have hs0 : (0 : Int) < s := by exact_mod_cast hs
  constructor
  · intro j hj
    have hm := mul_step_le (j + 1) k s (by exact_mod_cast hj)
    have hexp : ((j : Int) + 1) * s = j * s + s := by ring
    rw [Bool.eq_false_iff, Ne, operator_eq_pos _ _ _ _ hs0]
    omega
  · rw [operator_eq_pos _ _ _ _ hs0]
    omega

/-- Descending range: the cursor first compares equal to the sentinel after
`k = (begin - end + s - 1) / s` advances. -/
theorem desc_first_eq (b e : Int) (s k : Nat) (hbe : e ≤ b) (hs : 1 ≤ s)
    (hk : (k : Int) = (b - e + s - 1) / (s : Int)) :
    (∀ j : Nat, j < k →
        CounterIterator.operator_eq ⟨b + j * (-(s : Int)), -(s : Int)⟩ ⟨e, -(s : Int)⟩ = false)
      ∧ CounterIterator.operator_eq ⟨b + k * (-(s : Int)), -(s : Int)⟩ ⟨e, -(s : Int)⟩ = true := by
  obtain ⟨_, h2, h3⟩ := steps_bounds (b - e) s (by omega) hs
  rw [← hk] at h2 h3
  have hs0 : (0 : Int) < s := by exact_mod_cast hs
  constructor
  · intro j hj
    have hm := mul_step_le (j + 1) k s (by exact_mod_cast hj)
    have hexp : ((j : Int) + 1) * s = j * s + s := by ring
    have hneg : (j : Int) * (-(s : Int)) = -(j * s) := by ring
    rw [Bool.eq_false_iff, Ne, operator_eq_nonpos _ _ _ _ (by omega), hneg]
    omega
  · have hneg : (k : Int) * (-(s : Int)) = -(k * s) := by ring
    rw [operator_eq_nonpos _ _ _ _ (by omega), hneg]
    omega

/-- The loop over an ascending range `in(b, e, s)`, `b ≤ e`, `s ≥ 1`, as a function of the
fuel, with `k = (e - b + s - 1) / s`. -/
theorem iterate_asc (b e : Int) (s k : Nat) (hbe : b ≤ e) (hs : 1 ≤ s)
    (hk : (k : Int) = (e - b + s - 1) / (s : Int)) (fuel : Nat) :
    (in_ b e s).iterate fuel
      = if k < fuel then
          some ((List.range k).map (fun i : Nat => b + i * (s : Int)), ⟨b + k * (s : Int), s⟩)
        else none := by
  obtain ⟨hne, heq⟩ := asc_first_eq b e s k hbe hs hk
  simp only [LazyEvaluationList.iterate, in_, LazyEvaluationList.LazyEvaluationList,
    CounterIterator.CounterIterator, LazyEvaluationList.begin,
    LazyEvaluationList.end_, if_pos hbe]
  exact rangeFor_eq_ite ⟨e, s⟩ s k b hne heq fuel

/-- The loop over a descending range `in(b, e, s)`, `e < b`, `s ≥ 1`, as a function of the
fuel, with `k = (b - e + s - 1) / s`. -/
theorem iterate_desc (b e : Int) (s k : Nat) (hbe : e < b) (hs : 1 ≤ s)
    (hk : (k : Int) = (b - e + s - 1) / (s : Int)) (fuel : Nat) :
    (in_ b e s).iterate fuel
      = if k < fuel then
          some ((List.range k).map (fun i : Nat => b - i * (s : Int)), ⟨b - k * (s : Int), -(s : Int)⟩)
        else none := by
  obtain ⟨hne, heq⟩ := desc_first_eq b e s k (le_of_lt hbe) hs hk
  have hnle : ¬ b ≤ e := not_le.mpr hbe
  simp only [LazyEvaluationList.iterate, in_, LazyEvaluationList.LazyEvaluationList,
    CounterIterator.CounterIterator, LazyEvaluationList.begin,
    LazyEvaluationList.end_, if_neg hnle]
  rw [rangeFor_eq_ite ⟨e, -(s : Int)⟩ (-(s : Int)) k b hne heq fuel]
  have h1 : (fun i : Nat => b + (i : Int) * (-(s : Int))) = (fun i : Nat => b - i * (s : Int)) := by
    funext i; ring
  have h2 : b + (k : Int) * (-(s : Int)) = b - k * (s : Int) := by ring
  rw [h1, h2]

/-- A natural number of steps exists for every distance `d ≥ 0` and step `s ≥ 1`. -/
theorem steps_exists (d : Int) (s : Nat) (hd : 0 ≤ d) (hs : 1 ≤ s) :
    ∃ k : Nat, (k : Int) = (d + s - 1) / (s : Int) :=
  ⟨((d + s - 1) / (s : Int)).toNat, Int.toNat_of_nonneg (steps_bounds d s hd hs).1⟩

/-- The number of steps never exceeds the distance. -/
theorem steps_le_distance (d : Int) (s k : Nat) (hd : 0 ≤ d) (hs : 1 ≤ s)
    (hk : (k : Int) = (d + s - 1) / (s : Int)) : (k : Int) ≤ d := by
  obtain ⟨_, _, h3⟩ := steps_bounds d s hd hs
  rw [← hk] at h3
  by_contra hlt
  have hm := mul_step_le (d + 1) k s (by omega)
  have hs1 : (1 : Int) ≤ s := by exact_mod_cast hs
  have hd2 : d ≤ d * s := le_mul_of_one_le_right hd hs1
  have hexp : (d + 1) * (s : Int) = d * s + s := by ring
  omega

/-- A cursor that compares equal to the sentinel after `k` advances is accessible for the
loop relation: the loop started from it cannot run forever. -/
theorem acc_of_eq_after (e : CounterIterator) (t : Int) :
    ∀ (k : Nat) (p : Int), CounterIterator.operator_eq ⟨p + k * t, t⟩ e = true →
      Acc (rangeForNext e) ⟨p, t⟩ := by
  intro k
  induction k with
  | zero =>
    intro p heq
    simp only [Nat.cast_zero, zero_mul, add_zero] at heq
    refine Acc.intro _ (fun y hy => ?_)
    have hne := hy.1
    simp [CounterIterator.operator_ne, heq] at hne
  | succ k ih =>
    intro p heq
    refine Acc.intro _ (fun y hy => ?_)
    rw [hy.2]
    simp only [CounterIterator.operator_inc]
    apply ih
    rw [← heq]; congr 2; push_cast; ring

/-- A state related to itself is not accessible. -/
theorem not_acc_of_self_loop {α : Type} (r : α → α → Prop) (x : α) (hx : r x x) : ¬ Acc r x := by
  intro hacc
  induction hacc with
  | intro y _ ih => exact ih y hx hx

/-- The advance counts `k` with `d ≤ k * s ≤ d + s`, for a distance `d ≥ 0` and a step
`s ≥ 1`: the number of steps `k0`, and `k0 + 1` as well when `s` divides `d`. -/
theorem hits_iff (d : Int) (s k0 k : Nat) (hd : 0 ≤ d) (hs : 1 ≤ s)
    (hk : (k0 : Int) = (d + s - 1) / (s : Int)) :
    (d ≤ (k : Int) * s ∧ (k : Int) * s ≤ d + s) ↔ (k = k0 ∨ (k = k0 + 1 ∧ (s : Int) ∣ d)) := by
  obtain ⟨_, h2, h3⟩ := steps_bounds d s hd hs
  rw [← hk] at h2 h3
  have hs0 : (0 : Int) < s := by exact_mod_cast hs
  constructor
  · rintro ⟨hlo, hhi⟩
    have hge : k0 ≤ k := by
      by_contra hlt
      have hm := mul_step_le (k + 1) k0 s (by omega)
      have hexp : ((k : Int) + 1) * s = k * s + s := by ring
      omega
    have hle : k ≤ k0 + 1 := by
      by_contra hgt
      have hm := mul_step_le (k0 + 2) k s (by omega)
      have hexp : ((k0 : Int) + 2) * s = k0 * s + s + s := by ring
      omega
    rcases Nat.eq_or_lt_of_le hge with heq | hlt
    · exact Or.inl heq.symm
    · have hk1 : k = k0 + 1 := by omega
      subst hk1
      have hexp : (((k0 + 1 : Nat) : Int)) * s = k0 * s + s := by push_cast; ring
      refine Or.inr ⟨rfl, ⟨k0, ?_⟩⟩
      have : d = (k0 : Int) * s := by omega
      rw [this]; ring
  · rintro (h | ⟨h, ⟨m, hm⟩⟩)
    · subst h
      omega
    · subst h
      have hexp : (((k0 + 1 : Nat) : Int)) * s = k0 * s + s := by push_cast; ring
      have hlt : (k0 : Int) < m + 1 := by
        apply lt_of_mul_lt_mul_right _ (le_of_lt hs0)
        have : (m + 1) * (s : Int) = s * m + s := by ring
        omega
      have hm2 := mul_step_le k0 m s (by omega)
      have hcomm : (m : Int) * s = s * m := by ring
      omega

/-- The begin counter of `in(b, e, s)`. -/
theorem in_begin (b e : Int) (s : Nat) :
    (in_ b e s).begin = ⟨b, if b ≤ e then (s : Int) else -(s : Int)⟩ :=
  rfl

/-- The end counter of `in(b, e, s)`. -/
theorem in_end (b e : Int) (s : Nat) :
    (in_ b e s).end_ = ⟨e, if b ≤ e then (s : Int) else -(s : Int)⟩ :=
  rfl

/-- The comparison of a pair of counters and of its mirror image agree. -/
theorem operator_eq_neg (p t b : Int) :
    CounterIterator.operator_eq ⟨p, t⟩ ⟨b, t⟩ = CounterIterator.operator_eq ⟨-p, -t⟩ ⟨-b, -t⟩ := by
  rw [Bool.eq_iff_iff]
  rcases lt_trichotomy t 0 with h | h | h
  · rw [operator_eq_nonpos _ _ _ _ (le_of_lt h), operator_eq_pos _ _ _ _ (by omega)]
    omega
  · subst h
    rw [operator_eq_nonpos _ _ _ _ (le_refl 0), operator_eq_nonpos _ _ _ _ (by simp)]
    omega
  · rw [operator_eq_pos _ _ _ _ h, operator_eq_nonpos _ _ _ _ (by omega)]
    omega

/-- Wrapping leaves a representable value unchanged. -/
theorem wrap64_of_representable (x : Int) (h : representable64 x) : wrap64 x = x := by
  unfold representable64 at h
  unfold wrap64
  omega

/-- One comparison of an ascending run in the 64-bit model, at a cursor `n` between the
start `b` and `e + t`: its three subtractions are representable when those of the first
comparison are bounded below, and it agrees with the comparison over the integers. -/
theorem eq64_step_asc (n e t t2 b : Int) (ht : 0 < t) (ht63 : t ≤ 2 ^ 63 - 1)
    (he : representable64 e) (h1 : -2 ^ 63 ≤ b - t) (h2 : -2 ^ 63 ≤ b - t - e)
    (hbn : b ≤ n) (hn : n ≤ e + t) :
    (∀ x ∈ CounterIterator.operator_eq64_arith ⟨n, t⟩ ⟨e, t2⟩, representable64 x)
      ∧ CounterIterator.operator_eq64 ⟨n, t⟩ ⟨e, t2⟩ = CounterIterator.operator_eq ⟨n, t⟩ ⟨e, t2⟩ := by
  unfold representable64 at he
  have r1 : representable64 (n - e) := ⟨by omega, by omega⟩
  have r2 : representable64 (n - t) := ⟨by omega, by omega⟩
  have r3 : representable64 (n - t - e) := ⟨by omega, by omega⟩
  have w1 := wrap64_of_representable _ r1
  have w2 := wrap64_of_representable _ r2
  have w3 := wrap64_of_representable _ r3
  constructor
  · intro x hx
    simp only [CounterIterator.operator_eq64_arith, w2, List.mem_cons, List.mem_singleton,
      List.not_mem_nil, or_false] at hx
    rcases hx with rfl | rfl | rfl
    · exact r1
    · exact r2
    · exact r3
  · simp only [CounterIterator.operator_eq64, CounterIterator.operator_eq, w1, w2, w3]

/-- One comparison of a descending run in the 64-bit model, at a cursor `n` between `e + u`
and the start `b`. -/
theorem eq64_step_desc (n e u u2 b : Int) (hu : u < 0) (hu63 : -2 ^ 63 ≤ u)
    (he : representable64 e) (h1 : b - u ≤ 2 ^ 63 - 1) (h2 : b - u - e ≤ 2 ^ 63 - 1)
    (hbn : n ≤ b) (hn : e + u ≤ n) :
    (∀ x ∈ CounterIterator.operator_eq64_arith ⟨n, u⟩ ⟨e, u2⟩, representable64 x)
      ∧ CounterIterator.operator_eq64 ⟨n, u⟩ ⟨e, u2⟩ = CounterIterator.operator_eq ⟨n, u⟩ ⟨e, u2⟩ := by
  unfold representable64 at he
  have r1 : representable64 (n - e) := ⟨by omega, by omega⟩
  have r2 : representable64 (n - u) := ⟨by omega, by omega⟩
  have r3 : representable64 (n - u - e) := ⟨by omega, by omega⟩
  have w1 := wrap64_of_representable _ r1
  have w2 := wrap64_of_representable _ r2
  have w3 := wrap64_of_representable _ r3
  constructor
  · intro x hx
    simp only [CounterIterator.operator_eq64_arith, w2, List.mem_cons, List.mem_singleton,
      List.not_mem_nil, or_false] at hx
    rcases hx with rfl | rfl | rfl
    · exact r1
    · exact r2
    · exact r3
  · simp only [CounterIterator.operator_eq64, CounterIterator.operator_eq, w1, w2, w3]

/-- An ascending run in the 64-bit model whose additions are representable: the
subtractions of its comparisons are representable and the run is the run over the
integers. -/
theorem arith64_asc (e t t2 b : Int) (ht : 0 < t) (ht63 : t ≤ 2 ^ 63 - 1)
    (he : representable64 e) (h1 : -2 ^ 63 ≤ b - t) (h2 : -2 ^ 63 ≤ b - t - e) :
    ∀ (fuel : Nat) (n : Int), b ≤ n → n ≤ e + t →
      (∀ a ∈ (rangeForArith64 fuel ⟨n, t⟩ ⟨e, t2⟩).1, representable64 a) →
      (∀ x ∈ (rangeForArith64 fuel ⟨n, t⟩ ⟨e, t2⟩).2, representable64 x)
        ∧ rangeFor64 fuel ⟨n, t⟩ ⟨e, t2⟩ = rangeFor fuel ⟨n, t⟩ ⟨e, t2⟩ := by
  intro fuel
  induction fuel with
  | zero =>
    intro n _ _ _
    exact ⟨fun x hx => by simp [rangeForArith64] at hx, rfl⟩
  | succ f ih =>
    intro n hbn hn hadd
    obtain ⟨hsub, heq⟩ := eq64_step_asc n e t t2 b ht ht63 he h1 h2 hbn hn
    cases hc : CounterIterator.operator_eq ⟨n, t⟩ ⟨e, t2⟩ with
    | true =>
      simp only [rangeForArith64, rangeFor64, rangeFor, CounterIterator.operator_ne64,
        CounterIterator.operator_ne, heq, hc, Bool.not_true, Bool.false_eq_true, if_false,
        and_true]
      exact hsub
    | false =>
      have hlt : n < e := by
        have hw := operator_eq_pos n t e t2 ht
        rw [hc] at hw
        simp only [Bool.false_eq_true, false_iff, not_and, not_le] at hw
        by_contra hge
        have := hw (not_lt.mp hge)
        omega
      simp only [rangeForArith64, CounterIterator.operator_ne64, heq, hc, Bool.not_false,
        if_true, CounterIterator.operator_inc64_arith, CounterIterator.operator_inc64,
        List.singleton_append, List.mem_cons] at hadd
      have radd : representable64 (n + t) := hadd (n + t) (Or.inl rfl)
      have wadd := wrap64_of_representable _ radd
      rw [wadd] at hadd
      obtain ⟨ihsub, iheq⟩ := ih (n + t) (by omega) (by omega)
        (fun a ha => hadd a (Or.inr ha))
      constructor
      · simp only [rangeForArith64, CounterIterator.operator_ne64, heq, hc, Bool.not_false,
          if_true, CounterIterator.operator_inc64, wadd, List.mem_append]
        rintro x (hx | hx)
        · exact hsub x hx
        · exact ihsub x hx
      · simp only [rangeFor64, rangeFor, CounterIterator.operator_ne64,
          CounterIterator.operator_ne, heq, hc, Bool.not_false, if_true,
          CounterIterator.operator_inc64, CounterIterator.operator_inc, wadd, iheq]

/-- A descending run in the 64-bit model whose additions are representable: the
subtractions of its comparisons are representable and the run is the run over the
integers. -/
theorem arith64_desc (e u u2 b : Int) (hu : u < 0) (hu63 : -2 ^ 63 ≤ u)
    (he : representable64 e) (h1 : b - u ≤ 2 ^ 63 - 1) (h2 : b - u - e ≤ 2 ^ 63 - 1) :
    ∀ (fuel : Nat) (n : Int), n ≤ b → e + u ≤ n →
      (∀ a ∈ (rangeForArith64 fuel ⟨n, u⟩ ⟨e, u2⟩).1, representable64 a) →
      (∀ x ∈ (rangeForArith64 fuel ⟨n, u⟩ ⟨e, u2⟩).2, representable64 x)
        ∧ rangeFor64 fuel ⟨n, u⟩ ⟨e, u2⟩ = rangeFor fuel ⟨n, u⟩ ⟨e, u2⟩ := by
  intro fuel
  induction fuel with
  | zero =>
    intro n _ _ _
    exact ⟨fun x hx => by simp [rangeForArith64] at hx, rfl⟩
  | succ f ih =>
    intro n hbn hn hadd
    obtain ⟨hsub, heq⟩ := eq64_step_desc n e u u2 b hu hu63 he h1 h2 hbn hn
    cases hc : CounterIterator.operator_eq ⟨n, u⟩ ⟨e, u2⟩ with
    | true =>
      simp only [rangeForArith64, rangeFor64, rangeFor, CounterIterator.operator_ne64,
        CounterIterator.operator_ne, heq, hc, Bool.not_true, Bool.false_eq_true, if_false,
        and_true]
      exact hsub
    | false =>
      have hlt : e < n := by
        have hw := operator_eq_nonpos n u e u2 (le_of_lt hu)
        rw [hc] at hw
        simp only [Bool.false_eq_true, false_iff, not_and, not_le] at hw
        exact hw hn
      simp only [rangeForArith64, CounterIterator.operator_ne64, heq, hc, Bool.not_false,
        if_true, CounterIterator.operator_inc64_arith, CounterIterator.operator_inc64,
        List.singleton_append, List.mem_cons] at hadd
      have radd : representable64 (n + u) := hadd (n + u) (Or.inl rfl)
      have wadd := wrap64_of_representable _ radd
      rw [wadd] at hadd
      obtain ⟨ihsub, iheq⟩ := ih (n + u) (by omega) (by omega)
        (fun a ha => hadd a (Or.inr ha))
      constructor
      · simp only [rangeForArith64, CounterIterator.operator_ne64, heq, hc, Bool.not_false,
          if_true, CounterIterator.operator_inc64, wadd, List.mem_append]
        rintro x (hx | hx)
        · exact hsub x hx
        · exact ihsub x hx
      · simp only [rangeFor64, rangeFor, CounterIterator.operator_ne64,
          CounterIterator.operator_ne, heq, hc, Bool.not_false, if_true,
          CounterIterator.operator_inc64, CounterIterator.operator_inc, wadd, iheq]

/-- The additions of an ascending run in the 64-bit model are representable when
`e + t ≤ 2 ^ 63`. -/
theorem adds64_asc (e t t2 b : Int) (ht : 0 < t) (ht63 : t ≤ 2 ^ 63 - 1)
    (he : representable64 e) (h1 : -2 ^ 63 ≤ b - t) (h2 : -2 ^ 63 ≤ b - t - e)
    (h3 : e + t ≤ 2 ^ 63) :
    ∀ (fuel : Nat) (n : Int), b ≤ n → n ≤ e + t →
      ∀ a ∈ (rangeForArith64 fuel ⟨n, t⟩ ⟨e, t2⟩).1, representable64 a := by
  intro fuel
  induction fuel with
  | zero =>
    intro n _ _ a ha
    simp [rangeForArith64] at ha
  | succ f ih =>
    intro n hbn hn
    obtain ⟨_, heq⟩ := eq64_step_asc n e t t2 b ht ht63 he h1 h2 hbn hn
    cases hc : CounterIterator.operator_eq ⟨n, t⟩ ⟨e, t2⟩ with
    | true =>
      intro a ha
      simp [rangeForArith64, CounterIterator.operator_ne64, heq, hc] at ha
    | false =>
      have hlt : n < e := by
        have hw := operator_eq_pos n t e t2 ht
        rw [hc] at hw
        simp only [Bool.false_eq_true, false_iff, not_and, not_le] at hw
        by_contra hge
        have := hw (not_lt.mp hge)
        omega
      have radd : representable64 (n + t) := ⟨by omega, by omega⟩
      have wadd := wrap64_of_representable _ radd
      simp only [rangeForArith64, CounterIterator.operator_ne64, heq, hc, Bool.not_false,
        if_true, CounterIterator.operator_inc64_arith, CounterIterator.operator_inc64, wadd,
        List.singleton_append, List.mem_cons]
      rintro a (rfl | ha)
      · exact radd
      · exact ih (n + t) (by omega) (by omega) a ha

/-- The additions of a descending run in the 64-bit model are representable when
`-2 ^ 63 - 1 ≤ e + u`. -/
theorem adds64_desc (e u u2 b : Int) (hu : u < 0) (hu63 : -2 ^ 63 ≤ u)
    (he : representable64 e) (h1 : b - u ≤ 2 ^ 63 - 1) (h2 : b - u - e ≤ 2 ^ 63 - 1)
    (h3 : -2 ^ 63 - 1 ≤ e + u) :
    ∀ (fuel : Nat) (n : Int), n ≤ b → e + u ≤ n →
      ∀ a ∈ (rangeForArith64 fuel ⟨n, u⟩ ⟨e, u2⟩).1, representable64 a := by
  intro fuel
  induction fuel with
  | zero =>
    intro n _ _ a ha
    simp [rangeForArith64] at ha
  | succ f ih =>
    intro n hbn hn
    obtain ⟨_, heq⟩ := eq64_step_desc n e u u2 b hu hu63 he h1 h2 hbn hn
    cases hc : CounterIterator.operator_eq ⟨n, u⟩ ⟨e, u2⟩ with
    | true =>
      intro a ha
      simp [rangeForArith64, CounterIterator.operator_ne64, heq, hc] at ha
    | false =>
      have hlt : e < n := by
        have hw := operator_eq_nonpos n u e u2 (le_of_lt hu)
        rw [hc] at hw
        simp only [Bool.false_eq_true, false_iff, not_and, not_le] at hw
        exact hw hn
      have radd : representable64 (n + u) := ⟨by omega, by omega⟩
      have wadd := wrap64_of_representable _ radd
      simp only [rangeForArith64, CounterIterator.operator_ne64, heq, hc, Bool.not_false,
        if_true, CounterIterator.operator_inc64_arith, CounterIterator.operator_inc64, wadd,
        List.singleton_append, List.mem_cons]
      rintro a (rfl | ha)
      · exact radd
      · exact ih (n + u) (by omega) (by omega) a ha

/-- A comparison whose three subtractions are representable is the comparison over the
integers. -/
theorem operator_eq64_of_representable (c a : CounterIterator)
    (h : ∀ x ∈ c.operator_eq64_arith a, representable64 x) :
    c.operator_eq64 a = c.operator_eq a := by
  have r1 : representable64 (c.number - a.number) :=
    h _ (by simp [CounterIterator.operator_eq64_arith])
  have r2 : representable64 (c.number - c.step) :=
    h _ (by simp [CounterIterator.operator_eq64_arith])
  have r3 : representable64 (wrap64 (c.number - c.step) - a.number) :=
    h _ (by simp [CounterIterator.operator_eq64_arith])
  rw [wrap64_of_representable _ r2] at r3
  simp only [CounterIterator.operator_eq64, CounterIterator.operator_eq,
    wrap64_of_representable _ r1, wrap64_of_representable _ r2, wrap64_of_representable _ r3]

/-- An advance whose addition is representable is the advance over the integers. -/
theorem operator_inc64_of_representable (c : CounterIterator)
    (h : ∀ a ∈ c.operator_inc64_arith, representable64 a) :
    c.operator_inc64 = c.operator_inc := by
  have r : representable64 (c.number + c.step) :=
    h _ (by simp [CounterIterator.operator_inc64_arith])
  simp only [CounterIterator.operator_inc64, CounterIterator.operator_inc,
    wrap64_of_representable _ r]

/-- Advances whose additions are all representable are the advances over the integers. -/
theorem operator_inc64_iterate (c : CounterIterator) :
    ∀ k : Nat,
      (∀ j : Nat, j < k →
        ∀ a ∈ (CounterIterator.operator_inc64^[j] c).operator_inc64_arith, representable64 a) →
      CounterIterator.operator_inc64^[k] c = CounterIterator.operator_inc^[k] c := by
  intro k
  induction k with
  | zero => intro _; rfl
  | succ k ih =>
    intro h
    have hk := ih (fun j hj => h j (Nat.lt_succ_of_lt hj))
    rw [Function.iterate_succ_apply', Function.iterate_succ_apply',
      operator_inc64_of_representable _ (h k (Nat.lt_succ_self k)), hk]

/-- A run of the loop in the 64-bit model in which no addition and no subtraction
overflows is the run over the integers. -/
theorem rangeFor64_of_representable :
    ∀ (fuel : Nat) (it e : CounterIterator),
      (∀ a ∈ (rangeForArith64 fuel it e).1, representable64 a) →
      (∀ x ∈ (rangeForArith64 fuel it e).2, representable64 x) →
      rangeFor64 fuel it e = rangeFor fuel it e := by
  intro fuel
  induction fuel with
  | zero => intro _ _ _ _; rfl
  | succ f ih =>
    intro it e hadd hsub
    have heq : it.operator_eq64 e = it.operator_eq e := by
      apply operator_eq64_of_representable
      intro x hx
      apply hsub
      simp only [rangeForArith64]
      split
      · exact List.mem_append_left _ hx
      · exact hx
    cases hc : it.operator_eq e with
    | true =>
      simp only [rangeFor64, rangeFor, CounterIterator.operator_ne64,
        CounterIterator.operator_ne, heq, hc, Bool.not_true, Bool.false_eq_true, if_false]
    | false =>
      simp only [rangeForArith64, CounterIterator.operator_ne64, heq, hc, Bool.not_false,
        if_true] at hadd hsub
      have hinc : it.operator_inc64 = it.operator_inc :=
        operator_inc64_of_representable it (fun a ha => hadd a (List.mem_append_left _ ha))
      rw [hinc] at hadd hsub
      have hrec := ih it.operator_inc e (fun a ha => hadd a (List.mem_append_right _ ha))
        (fun x hx => hsub x (List.mem_append_right _ hx))
      simp only [rangeFor64, rangeFor, CounterIterator.operator_ne64,
        CounterIterator.operator_ne, heq, hc, Bool.not_false, if_true, hinc, hrec]

/-- The loop over a lazy list in the 64-bit model, when nothing overflows, is the loop over
the integers. -/
theorem iterate64_of_noOverflow (l : LazyEvaluationList) (fuel : Nat)
    (h : l.noOverflow64 fuel) : l.iterate64 fuel = l.iterate fuel :=
  rangeFor64_of_representable fuel l.begin l.end_ h.1 h.2

/-- The loop in the 64-bit model stops at a cursor that compares equal to the sentinel. -/
theorem rangeFor64_stop (fuel : Nat) (it e : CounterIterator)
    (h : it.operator_ne64 e = false) : rangeFor64 (fuel + 1) it e = some ([], it) := by
  simp [rangeFor64, h]

/-- The loop in the 64-bit model reads the cursor and advances when the cursor compares
unequal to the sentinel and the rest of the run returns. -/
theorem rangeFor64_step (fuel : Nat) (it e : CounterIterator) (vs : List Int)
    (stop : CounterIterator) (h : it.operator_ne64 e = true)
    (hrest : rangeFor64 fuel it.operator_inc64 e = some (vs, stop)) :
    rangeFor64 (fuel + 1) it e = some (it.operator_deref :: vs, stop) := by
  simp [rangeFor64, h, hrest]

/-- Over the integers, for a step magnitude `s ≥ 1` the loop over `in(b, e, s)` stops, every
value it reads is strictly before `e` in the direction of travel, and the cursor at which it
stops is at or past `e`. -/
theorem iterate_end_excluded (b e : Int) (s : Nat) (hs : 1 ≤ s) :
    ∃ (k : Nat) (vs : List Int) (stop : CounterIterator),
      (∀ fuel : Nat, (in_ b e s).iterate fuel = if k < fuel then some (vs, stop) else none)
        ∧ (b < e → ∀ v ∈ vs, v < e)
        ∧ (e < b → ∀ v ∈ vs, e < v)
        ∧ (b ≤ e → e ≤ stop.operator_deref)
        ∧ (e < b → stop.operator_deref ≤ e) := by
  rcases le_or_lt b e with hbe | hbe
  · obtain ⟨k, hk⟩ := steps_exists (e - b) s (by omega) hs
    obtain ⟨_, h2, h3⟩ := steps_bounds (e - b) s (by omega) hs
    rw [← hk] at h2 h3
    refine ⟨k, _, _, iterate_asc b e s k hbe hs hk, ?_, fun h => absurd hbe (not_le.mpr h), ?_,
      fun h => absurd hbe (not_le.mpr h)⟩
    · intro _ v hv
      obtain ⟨j, hj, rfl⟩ := List.mem_map.mp hv
      have hjk : j < k := List.mem_range.mp hj
      have hm := mul_step_le (j + 1) k s (by exact_mod_cast hjk)
      have hexp : ((j : Int) + 1) * s = j * s + s := by ring
      omega
    · intro _
      simp only [CounterIterator.operator_deref]
      omega
  · obtain ⟨k, hk⟩ := steps_exists (b - e) s (by omega) hs
    obtain ⟨_, h2, h3⟩ := steps_bounds (b - e) s (by omega) hs
    rw [← hk] at h2 h3
    refine ⟨k, _, _, iterate_desc b e s k hbe hs hk, fun h => absurd h (not_lt.mpr (le_of_lt hbe)),
      ?_, fun h => absurd hbe (not_lt.mpr h), ?_⟩
    · intro _ v hv
      obtain ⟨j, hj, rfl⟩ := List.mem_map.mp hv
      have hjk : j < k := List.mem_range.mp hj
      have hm := mul_step_le (j + 1) k s (by exact_mod_cast hjk)
      have hexp : ((j : Int) + 1) * s = j * s + s := by ring
      omega
    · intro _
      simp only [CounterIterator.operator_deref]
      omega

/-- Over the integers, for a step magnitude `s ≥ 1` the advance counts at which the begin
counter of `in(b, e, s)` compares equal to the end counter are `k0 = ⌈|e - b| / s⌉` and,
exactly when `s` divides `e - b`, also `k0 + 1`. -/
theorem equal_window_int (b e : Int) (s : Nat) (hs : 1 ≤ s) :
    ∃ k0 : Nat, (k0 : Int) = ⌈((|e - b| : Int) : ℚ) / (s : ℚ)⌉
      ∧ (∀ k : Nat,
          (CounterIterator.operator_inc^[k] (in_ b e s).begin).operator_eq (in_ b e s).end_ = true
            ↔ (k = k0 ∨ (k = k0 + 1 ∧ (s : Int) ∣ (e - b))))
      ∧ (∀ k : Nat, k0 + 1 < k →
          (CounterIterator.operator_inc^[k] (in_ b e s).begin).operator_eq (in_ b e s).end_
            = false) := by
  have hs0 : (0 : Int) < s := by exact_mod_cast hs
  obtain ⟨k0, hk⟩ := steps_exists (|e - b|) s (abs_nonneg _) hs
  have hiff : ∀ k : Nat,
      (CounterIterator.operator_inc^[k] (in_ b e s).begin).operator_eq (in_ b e s).end_ = true
        ↔ (k = k0 ∨ (k = k0 + 1 ∧ (s : Int) ∣ (e - b))) := by
    intro k
    have hh := hits_iff (|e - b|) s k0 k (abs_nonneg _) hs hk
    rw [in_begin, in_end, operator_inc_iterate]
    rcases le_or_lt b e with hbe | hbe
    · have habs : |e - b| = e - b := abs_of_nonneg (by omega)
      rw [habs] at hh
      rw [if_pos hbe, operator_eq_pos _ _ _ _ hs0, ← hh]
      omega
    · have habs : |e - b| = b - e := by rw [abs_of_neg (by omega)]; ring
      have hdvd : (s : Int) ∣ (e - b) ↔ (s : Int) ∣ (b - e) := by
        rw [← dvd_neg]; simp
      have hneg : (k : Int) * (-(s : Int)) = -(k * s) := by ring
      rw [habs] at hh
      rw [if_neg (not_le.mpr hbe), operator_eq_nonpos _ _ _ _ (by omega), hdvd, ← hh, hneg]
      omega
  refine ⟨k0, ?_, hiff, fun k hgt => ?_⟩
  · rw [hk]
    exact steps_eq_ceil (|e - b|) s (abs_nonneg _) hs
  · rw [Bool.eq_false_iff, Ne, hiff k]
    omega

/-- Over the integers, for a step magnitude `s ≥ 1` the loop over `in(b, e, s)` reads, with
every amount of fuel, the negations of the values read by the loop over `in(-b, -e, s)`. -/
theorem iterate_neg (b e : Int) (s : Nat) (hs : 1 ≤ s) (fuel : Nat) :
    ((in_ b e s).iterate fuel).map Prod.fst
      = ((in_ (-b) (-e) s).iterate fuel).map (fun r => r.1.map (fun v => -v)) := by
  have hmap1 : (fun v : Int => -v) ∘ (fun i : Nat => -b - (i : Int) * (s : Int))
      = (fun i : Nat => b + (i : Int) * (s : Int)) := by
    funext i; simp only [Function.comp_apply]; ring
  have hmap2 : (fun v : Int => -v) ∘ (fun i : Nat => -b + (i : Int) * (s : Int))
      = (fun i : Nat => b - (i : Int) * (s : Int)) := by
    funext i; simp only [Function.comp_apply]; ring
  rcases lt_trichotomy b e with hbe | hbe | hbe
  · obtain ⟨k, hk⟩ := steps_exists (e - b) s (by omega) hs
    have hk2 : (k : Int) = (-b - -e + s - 1) / (s : Int) := by
      rw [hk]; congr 1; ring
    rw [iterate_asc b e s k (le_of_lt hbe) hs hk fuel,
      iterate_desc (-b) (-e) s k (by omega) hs hk2 fuel]
    by_cases hf : k < fuel
    · simp only [if_pos hf, Option.map_some', List.map_map, hmap1]
    · simp only [if_neg hf, Option.map_none']
  · subst hbe
    obtain ⟨k, hk⟩ := steps_exists (b - b) s (by omega) hs
    have hk0 : k = 0 := by
      have := steps_le_distance (b - b) s k (by omega) hs hk
      omega
    have hk2 : (k : Int) = (-b - -b + s - 1) / (s : Int) := by
      rw [hk]; congr 1; ring
    rw [iterate_asc b b s k (le_refl b) hs hk fuel,
      iterate_asc (-b) (-b) s k (le_refl _) hs hk2 fuel]
    subst hk0
    by_cases hf : 0 < fuel
    · simp [hf]
    · simp [hf]
  · obtain ⟨k, hk⟩ := steps_exists (b - e) s (by omega) hs
    have hk2 : (k : Int) = (-e - -b + s - 1) / (s : Int) := by
      rw [hk]; congr 1; ring
    rw [iterate_desc b e s k hbe hs hk fuel,
      iterate_asc (-b) (-e) s k (by omega) hs hk2 fuel]
    by_cases hf : k < fuel
    · simp only [if_pos hf, Option.map_some', List.map_map, hmap2]
    · simp only [if_neg hf, Option.map_none']

/-! ## The claims -/

/-- C1, as stated, fails for the 64-bit counter: `-2 ^ 62 < 2 ^ 62`, and no position of
`in(-2 ^ 62, 2 ^ 62, 1)` overflows, but its first comparison computes
`number - step - another.number = -2 ^ 63 - 1`; the wrapped comparison is true and the
loop stops at once with no value read, where the claim gives `2 ^ 63` values starting at
`begin`. -/
theorem C1_counterexample :
    (-2 ^ 62 : Int) < 2 ^ 62 ∧ representable64 (-2 ^ 62) ∧ representable64 (2 ^ 62)
      ∧ (-2 ^ 63 - 1) ∈ ((in_ (-2 ^ 62) (2 ^ 62) 1).iterateArith64 1).2
      ∧ ∀ fuel : Nat, (in_ (-2 ^ 62) (2 ^ 62) 1).iterate64 (fuel + 1) = some ([], ⟨-2 ^ 62, 1⟩) :=
  ⟨by decide, by decide, by decide, by decide,
    fun fuel => rangeFor64_stop fuel ⟨-2 ^ 62, 1⟩ ⟨2 ^ 62, 1⟩ (by decide)⟩

/-- C1, amended: for 64-bit `begin < end` and a step magnitude `1 ≤ s < 2 ^ 32`, whenever no
addition and no subtraction of the loop over `in(begin, end, s)` overflows the 64-bit
counter, the loop stops (with any fuel above `k`) and reads exactly the list
`begin, begin + s, ..., begin + (k - 1) * s`, whose length `k` is the ceiling of
`(end - begin) / s`; with less fuel the loop is still running. -/
theorem C1_ascending_sequence (b e : Int) (s : Nat) (_hb : representable64 b)
    (_he : representable64 e) (_hs32 : s < 2 ^ 32) (hbe : b < e) (hs : 1 ≤ s) :
    ∃ k : Nat, (k : Int) = ⌈((e - b : Int) : ℚ) / (s : ℚ)⌉
      ∧ ((List.range k).map (fun i : Nat => b + i * (s : Int))).length = k
      ∧ ∀ fuel : Nat, (in_ b e s).noOverflow64 fuel →
          (in_ b e s).iterate64 fuel
            = if k < fuel then
                some ((List.range k).map (fun i : Nat => b + i * (s : Int)),
                  ⟨b + k * (s : Int), s⟩)
              else none := by
  obtain ⟨k, hk⟩ := steps_exists (e - b) s (by omega) hs
  refine ⟨k, ?_, by simp, fun fuel hno => ?_⟩
  · rw [hk]
    exact steps_eq_ceil (e - b) s (by omega) hs
  · rw [iterate64_of_noOverflow _ fuel hno]
    exact iterate_asc b e s k (le_of_lt hbe) hs hk fuel

/-- Witness of C1: nothing overflows in the loop over `in(0, 10, 3)`, which produces
`0, 3, 6, 9` and stops with the cursor at `12`. -/
theorem C1_ascending_sequence_witness :
    (in_ 0 10 3).noOverflow64 5 ∧ (in_ 0 10 3).iterate64 5 = some ([0, 3, 6, 9], ⟨12, 3⟩) := by
  obtain ⟨k, hk, _, h⟩ :=
    C1_ascending_sequence 0 10 3 (by decide) (by decide) (by decide) (by decide) (by decide)
  have hc : ⌈(((10 - 0 : Int) : ℚ)) / ((3 : Nat) : ℚ)⌉ = 4 := by
    rw [Int.ceil_eq_iff]; norm_num
  rw [hc] at hk
  have hk4 : k = 4 := by exact_mod_cast hk
  subst hk4
  refine ⟨by decide, ?_⟩
  rw [h 5 (by decide)]
  decide

/-- C2, as stated, fails for the 64-bit counter: `2 ^ 62 > -2 ^ 62`, and no position of
`in(2 ^ 62, -2 ^ 62, 1)` overflows, but its first comparison computes
`number - another.number = 2 ^ 63`; the loop reads `2 ^ 62` and then stops, where the
claim gives `2 ^ 63` values. -/
theorem C2_counterexample :
    (-2 ^ 62 : Int) < 2 ^ 62 ∧ representable64 (2 ^ 62) ∧ representable64 (-2 ^ 62)
      ∧ (2 ^ 63) ∈ ((in_ (2 ^ 62) (-2 ^ 62) 1).iterateArith64 1).2
      ∧ ¬ representable64 (2 ^ 63)
      ∧ ∀ fuel : Nat,
          (in_ (2 ^ 62) (-2 ^ 62) 1).iterate64 (fuel + 2) = some ([2 ^ 62], ⟨2 ^ 62 - 1, -1⟩) :=
  ⟨by decide, by decide, by decide, by decide, by decide,
    fun fuel => rangeFor64_step (fuel + 1) ⟨2 ^ 62, -1⟩ ⟨-2 ^ 62, -1⟩ [] ⟨2 ^ 62 - 1, -1⟩
      (by decide) (rangeFor64_stop fuel _ _ (by decide))⟩

/-- C2, amended: for 64-bit `begin > end` and a step magnitude `1 ≤ s < 2 ^ 32`, whenever no
addition and no subtraction of the loop over `in(begin, end, s)` overflows the 64-bit
counter, the loop stops (with any fuel above `k`) and reads exactly the list
`begin, begin - s, ..., begin - (k - 1) * s`, whose length `k` is the ceiling of
`(begin - end) / s`; with less fuel the loop is still running. -/
theorem C2_descending_sequence (b e : Int) (s : Nat) (_hb : representable64 b)
    (_he : representable64 e) (_hs32 : s < 2 ^ 32) (hbe : e < b) (hs : 1 ≤ s) :
    ∃ k : Nat, (k : Int) = ⌈((b - e : Int) : ℚ) / (s : ℚ)⌉
      ∧ ((List.range k).map (fun i : Nat => b - i * (s : Int))).length = k
      ∧ ∀ fuel : Nat, (in_ b e s).noOverflow64 fuel →
          (in_ b e s).iterate64 fuel
            = if k < fuel then
                some ((List.range k).map (fun i : Nat => b - i * (s : Int)),
                  ⟨b - k * (s : Int), -(s : Int)⟩)
              else none := by
  obtain ⟨k, hk⟩ := steps_exists (b - e) s (by omega) hs
  refine ⟨k, ?_, by simp, fun fuel hno => ?_⟩
  · rw [hk]
    exact steps_eq_ceil (b - e) s (by omega) hs
  · rw [iterate64_of_noOverflow _ fuel hno]
    exact iterate_desc b e s k hbe hs hk fuel

/-- Witness of C2: nothing overflows in the loop over `in(5, 0, 1)`, which produces
`5, 4, 3, 2, 1` and stops with the cursor at `0`. -/
theorem C2_descending_sequence_witness :
    (in_ 5 0 1).noOverflow64 6 ∧ (in_ 5 0 1).iterate64 6 = some ([5, 4, 3, 2, 1], ⟨0, -1⟩) := by
  obtain ⟨k, hk, _, h⟩ :=
    C2_descending_sequence 5 0 1 (by decide) (by decide) (by decide) (by decide) (by decide)
  have hc : ⌈(((5 - 0 : Int) : ℚ)) / ((1 : Nat) : ℚ)⌉ = 5 := by
    rw [Int.ceil_eq_iff]; norm_num
  rw [hc] at hk
  have hk5 : k = 5 := by exact_mod_cast hk
  subst hk5
  refine ⟨by decide, ?_⟩
  rw [h 6 (by decide)]
  decide

/-- C3: for every `b` and every step magnitude `s`, zero included, the `begin()` counter of
`in(b, b, s)` compares equal to its `end()` counter before any advance, and the loop reads
no value: it stops at once with the cursor at `begin()`. -/
theorem C3_empty_range (b : Int) (s : Nat) :
    (in_ b b s).begin.operator_eq (in_ b b s).end_ = true
      ∧ ∀ fuel : Nat, (in_ b b s).iterate (fuel + 1) = some ([], (in_ b b s).begin) := by
  have heq : (in_ b b s).begin.operator_eq (in_ b b s).end_ = true := by
    simp only [in_, LazyEvaluationList.LazyEvaluationList,
    CounterIterator.CounterIterator, LazyEvaluationList.begin, LazyEvaluationList.end_,
      le_refl, if_true]
    rcases Nat.eq_zero_or_pos s with h0 | hpos
    · subst h0
      rw [operator_eq_nonpos _ _ _ _ (by simp)]
      simp
    · have hs0 : (0 : Int) < s := by exact_mod_cast hpos
      rw [operator_eq_pos _ _ _ _ hs0]
      omega
  refine ⟨heq, fun fuel => ?_⟩
  simp [LazyEvaluationList.iterate, rangeFor, CounterIterator.operator_ne, heq]

/-- C4, as stated, fails for the 64-bit counter: the loop over `in(-2 ^ 62, 2 ^ 62, 1)`, an
ascending range, stops at once at the cursor `-2 ^ 62`, which is before `end` and not at
or past it. -/
theorem C4_counterexample :
    (-2 ^ 62 : Int) ≤ 2 ^ 62
      ∧ (in_ (-2 ^ 62) (2 ^ 62) 1).iterate64 1 = some ([], ⟨-2 ^ 62, 1⟩)
      ∧ (∀ fuel : Nat,
          ((in_ (-2 ^ 62) (2 ^ 62) 1).iterate64 (fuel + 1)).map
            (fun r => CounterIterator.operator_deref r.2) = some (-2 ^ 62))
      ∧ ¬ ((2 ^ 62 : Int) ≤ -2 ^ 62) :=
  ⟨by decide, by decide,
    fun fuel => by rw [LazyEvaluationList.iterate64,
      rangeFor64_stop fuel (in_ (-2 ^ 62) (2 ^ 62) 1).begin (in_ (-2 ^ 62) (2 ^ 62) 1).end_
        (by decide)]; decide,
    by decide⟩

/-- C4, amended: for 64-bit `begin` and `end` and a step magnitude `1 ≤ s < 2 ^ 32`, whenever
no addition and no subtraction of the loop over `in(begin, end, s)` overflows the 64-bit
counter, the loop stops, every value it reads is strictly before `end` in the direction of
travel, and the cursor at which it stops is at or past `end`. -/
theorem C4_end_excluded (b e : Int) (s : Nat) (_hb : representable64 b)
    (_he : representable64 e) (_hs32 : s < 2 ^ 32) (hs : 1 ≤ s) :
    ∃ (k : Nat) (vs : List Int) (stop : CounterIterator),
      (∀ fuel : Nat, (in_ b e s).noOverflow64 fuel →
          (in_ b e s).iterate64 fuel = if k < fuel then some (vs, stop) else none)
        ∧ (b < e → ∀ v ∈ vs, v < e)
        ∧ (e < b → ∀ v ∈ vs, e < v)
        ∧ (b ≤ e → e ≤ stop.operator_deref)
        ∧ (e < b → stop.operator_deref ≤ e) := by
  obtain ⟨k, vs, stop, hrun, h1, h2, h3, h4⟩ := iterate_end_excluded b e s hs
  exact ⟨k, vs, stop,
    fun fuel hno => by rw [iterate64_of_noOverflow _ fuel hno]; exact hrun fuel, h1, h2, h3, h4⟩

/-- Witness of C4: nothing overflows in the loop over `in(0, 1, 5)`, which produces `0`
only; the loop stops with the cursor at `5`, past the end value `1`. -/
theorem C4_end_excluded_witness :
    (in_ 0 1 5).noOverflow64 2
      ∧ ∃ (vs : List Int) (stop : CounterIterator),
          (in_ 0 1 5).iterate64 2 = some (vs, stop) ∧ vs = [0] ∧ (∀ v ∈ vs, v < 1)
            ∧ 1 ≤ stop.operator_deref := by
  obtain ⟨k, vs, stop, h, hlt, _, hstop, _⟩ :=
    C4_end_excluded 0 1 5 (by decide) (by decide) (by decide) (by decide)
  have hd : (in_ 0 1 5).iterate64 2 = some ([0], ⟨5, 5⟩) := by decide
  have h2 := h 2 (by decide)
  rw [hd] at h2
  refine ⟨by decide, ?_⟩
  by_cases hk : k < 2
  · rw [if_pos hk] at h2
    have hpair : (([0] : List Int), (⟨5, 5⟩ : CounterIterator)) = (vs, stop) :=
      Option.some.inj h2
    have hvs : vs = [0] := (congrArg Prod.fst hpair).symm
    exact ⟨vs, stop, by rw [hd, h2], hvs, hlt (by decide), hstop (by decide)⟩
  · rw [if_neg hk] at h2
    exact absurd h2 (by simp)

/-- C5: for every `begin`, `end` and step magnitude `s ≥ 1` there is a `k ≤ |end - begin|`
such that the `begin()` counter of `in(begin, end, s)` advanced `k` times compares equal to
the `end()` counter; the start cursor is accessible for the loop relation (the loop is
well founded from it), and the loop returns with `|end - begin| + 1` units of fuel. -/
theorem C5_terminates (b e : Int) (s : Nat) (hs : 1 ≤ s) :
    (∃ k : Nat, k ≤ (e - b).natAbs
        ∧ (CounterIterator.operator_inc^[k] (in_ b e s).begin).operator_eq (in_ b e s).end_ = true)
      ∧ Acc (rangeForNext (in_ b e s).end_) (in_ b e s).begin
      ∧ ((in_ b e s).iterate ((e - b).natAbs + 1)).isSome = true := by
  rcases le_or_lt b e with hbe | hbe
  · obtain ⟨k, hk⟩ := steps_exists (e - b) s (by omega) hs
    have hkd := steps_le_distance (e - b) s k (by omega) hs hk
    have hkn : k ≤ (e - b).natAbs := by omega
    obtain ⟨_, heq⟩ := asc_first_eq b e s k hbe hs hk
    have hit := iterate_asc b e s k hbe hs hk ((e - b).natAbs + 1)
    rw [if_pos (by omega)] at hit
    refine ⟨⟨k, hkn, ?_⟩, ?_, by rw [hit]; rfl⟩
    · simp only [in_, LazyEvaluationList.LazyEvaluationList,
    CounterIterator.CounterIterator, LazyEvaluationList.begin, LazyEvaluationList.end_,
        if_pos hbe]
      rw [operator_inc_iterate]
      exact heq
    · simp only [in_, LazyEvaluationList.LazyEvaluationList,
    CounterIterator.CounterIterator, LazyEvaluationList.begin, LazyEvaluationList.end_,
        if_pos hbe]
      exact acc_of_eq_after _ _ k b heq
  · obtain ⟨k, hk⟩ := steps_exists (b - e) s (by omega) hs
    have hkd := steps_le_distance (b - e) s k (by omega) hs hk
    have hkn : k ≤ (e - b).natAbs := by omega
    obtain ⟨_, heq⟩ := desc_first_eq b e s k (le_of_lt hbe) hs hk
    have hit := iterate_desc b e s k hbe hs hk ((e - b).natAbs + 1)
    rw [if_pos (by omega)] at hit
    have hnle : ¬ b ≤ e := not_le.mpr hbe
    refine ⟨⟨k, hkn, ?_⟩, ?_, by rw [hit]; rfl⟩
    · simp only [in_, LazyEvaluationList.LazyEvaluationList,
    CounterIterator.CounterIterator, LazyEvaluationList.begin, LazyEvaluationList.end_,
        if_neg hnle]
      rw [operator_inc_iterate]
      exact heq
    · simp only [in_, LazyEvaluationList.LazyEvaluationList,
    CounterIterator.CounterIterator, LazyEvaluationList.begin, LazyEvaluationList.end_,
        if_neg hnle]
      exact acc_of_eq_after _ _ k b heq

/-- Witness of C5: `in(0, 10, 3)`, whose step does not divide the distance, reaches its
boundary within `10` advances and its loop returns with `11` units of fuel. -/
theorem C5_terminates_witness :
    (∃ k : Nat, k ≤ ((10 : Int) - 0).natAbs
        ∧ (CounterIterator.operator_inc^[k] (in_ 0 10 3).begin).operator_eq (in_ 0 10 3).end_ = true)
      ∧ Acc (rangeForNext (in_ 0 10 3).end_) (in_ 0 10 3).begin
      ∧ ((in_ 0 10 3).iterate (((10 : Int) - 0).natAbs + 1)).isSome = true :=
  C5_terminates 0 10 3 (by decide)

/-- C6: for `begin ≠ end` the range `in(begin, end, 0)` never terminates: after every number
of advances the `begin()` counter compares unequal to the `end()` counter, the loop uses up
every amount of fuel, and the start cursor is not accessible for the loop relation. -/
theorem C6_zero_step_diverges (b e : Int) (hbe : b ≠ e) :
    (∀ k : Nat,
        (CounterIterator.operator_inc^[k] (in_ b e 0).begin).operator_eq (in_ b e 0).end_ = false)
      ∧ (∀ fuel : Nat, (in_ b e 0).iterate fuel = none)
      ∧ ¬ Acc (rangeForNext (in_ b e 0).end_) (in_ b e 0).begin := by
  have hb : (in_ b e 0).begin = ⟨b, 0⟩ := by
    simp [in_, LazyEvaluationList.LazyEvaluationList,
    CounterIterator.CounterIterator, LazyEvaluationList.begin]
  have he : (in_ b e 0).end_ = ⟨e, 0⟩ := by
    simp [in_, LazyEvaluationList.LazyEvaluationList,
    CounterIterator.CounterIterator, LazyEvaluationList.end_]
  have hne : ∀ j : Nat, CounterIterator.operator_eq ⟨b + j * 0, 0⟩ ⟨e, 0⟩ = false := by
    intro j
    rw [Bool.eq_false_iff, Ne, operator_eq_nonpos _ _ _ _ (le_refl 0)]
    omega
  refine ⟨fun k => ?_, fun fuel => ?_, ?_⟩
  · rw [hb, he, operator_inc_iterate]
    exact hne k
  · rw [LazyEvaluationList.iterate, hb, he]
    exact rangeFor_none_of_ne _ _ fuel b (fun j _ => hne j)
  · rw [hb, he]
    apply not_acc_of_self_loop
    refine ⟨?_, by simp [CounterIterator.operator_inc]⟩
    have := hne 0
    simp only [Nat.cast_zero, zero_mul, add_zero] at this
    simp [CounterIterator.operator_ne, this]

/-- Witness of C6: `in(0, 1, 0)` never terminates. -/
theorem C6_zero_step_diverges_witness :
    (∀ k : Nat,
        (CounterIterator.operator_inc^[k] (in_ 0 1 0).begin).operator_eq (in_ 0 1 0).end_ = false)
      ∧ (∀ fuel : Nat, (in_ 0 1 0).iterate fuel = none)
      ∧ ¬ Acc (rangeForNext (in_ 0 1 0).end_) (in_ 0 1 0).begin :=
  C6_zero_step_diverges 0 1 (by decide)

/-- C8: the list built by `LazyEvaluationList(begin, end, s)` holds the counters
`(begin, t)` and `(end, t)` with `t = +s` when `begin ≤ end` and `t = -s` otherwise; the two
steps are equal; `begin()` and `cbegin()` give the start counter, and `end()` and `cend()`
give the end counter. -/
theorem C8_constructor_shape (b e : Int) (s : Nat) :
    (b ≤ e → (LazyEvaluationList.LazyEvaluationList b e s).begin_iter = ⟨b, (s : Int)⟩
        ∧ (LazyEvaluationList.LazyEvaluationList b e s).end_iter = ⟨e, (s : Int)⟩)
      ∧ (e < b → (LazyEvaluationList.LazyEvaluationList b e s).begin_iter = ⟨b, -(s : Int)⟩
        ∧ (LazyEvaluationList.LazyEvaluationList b e s).end_iter = ⟨e, -(s : Int)⟩)
      ∧ (LazyEvaluationList.LazyEvaluationList b e s).begin_iter.step
          = (LazyEvaluationList.LazyEvaluationList b e s).end_iter.step
      ∧ (LazyEvaluationList.LazyEvaluationList b e s).begin
          = (LazyEvaluationList.LazyEvaluationList b e s).begin_iter
      ∧ (LazyEvaluationList.LazyEvaluationList b e s).cbegin
          = (LazyEvaluationList.LazyEvaluationList b e s).begin_iter
      ∧ (LazyEvaluationList.LazyEvaluationList b e s).end_
          = (LazyEvaluationList.LazyEvaluationList b e s).end_iter
      ∧ (LazyEvaluationList.LazyEvaluationList b e s).cend
          = (LazyEvaluationList.LazyEvaluationList b e s).end_iter := by
  refine ⟨fun h => ?_, fun h => ?_, rfl, rfl, rfl, rfl, rfl⟩
  · simp [LazyEvaluationList.LazyEvaluationList, CounterIterator.CounterIterator, h]
  · simp [LazyEvaluationList.LazyEvaluationList, CounterIterator.CounterIterator, not_le.mpr h]

/-- Witness of C8: the ascending list `(0, 10, 3)` and the descending list `(5, 0, 1)`. -/
theorem C8_constructor_shape_witness :
    ((LazyEvaluationList.LazyEvaluationList 0 10 3).begin_iter = ⟨0, ((3 : Nat) : Int)⟩
        ∧ (LazyEvaluationList.LazyEvaluationList 0 10 3).end_iter = ⟨10, ((3 : Nat) : Int)⟩)
      ∧ ((LazyEvaluationList.LazyEvaluationList 5 0 1).begin_iter = ⟨5, -((1 : Nat) : Int)⟩
        ∧ (LazyEvaluationList.LazyEvaluationList 5 0 1).end_iter = ⟨0, -((1 : Nat) : Int)⟩) :=
  ⟨(C8_constructor_shape 0 10 3).1 (by decide), (C8_constructor_shape 5 0 1).2.1 (by decide)⟩

/-- C9, as stated, fails: the constructor and the builder accept the step magnitude `0` and
store the step `0` in both counters. -/
theorem C9_counterexample :
    (LazyEvaluationList.LazyEvaluationList 0 1 0).begin_iter.step = 0
      ∧ (LazyEvaluationList.LazyEvaluationList 0 1 0).end_iter.step = 0
      ∧ (in_ 0 1 0).begin_iter.step = 0
      ∧ (in_ 0 1 0).end_iter.step = 0 := by
  decide

/-- C9, amended: the constructor and the builder do not check the step magnitude; the step
stored in the start and end counters is nonzero exactly when the step magnitude `s` is
nonzero, so it is nonzero for every `s ≥ 1`. -/
theorem C9_step_nonzero_iff (b e : Int) (s : Nat) :
    ((LazyEvaluationList.LazyEvaluationList b e s).begin_iter.step ≠ 0 ↔ 1 ≤ s)
      ∧ ((LazyEvaluationList.LazyEvaluationList b e s).end_iter.step ≠ 0 ↔ 1 ≤ s)
      ∧ ((in_ b e s).begin_iter.step ≠ 0 ↔ 1 ≤ s)
      ∧ ((in_ b e s).end_iter.step ≠ 0 ↔ 1 ≤ s) := by
  have key : (if b ≤ e then (s : Int) else -(s : Int)) ≠ 0 ↔ 1 ≤ s := by
    split <;> omega
  exact ⟨key, key, key, key⟩

/-- C10: for every 32-bit step magnitude `s` the conversion to `counter_t` comes before the
negation: for `begin > end` the step stored in both counters is the integer `-s`, which lies
in `[-(2 ^ 32 - 1), 0]`, and not the 32-bit wraparound value `2 ^ 32 - s`; for
`begin ≤ end` it is `+s`. -/
theorem C10_step_widened (b e : Int) (s : Nat) (hs : s < 2 ^ 32) :
    (e < b → (LazyEvaluationList.LazyEvaluationList b e s).begin_iter.step = -(s : Int)
        ∧ (LazyEvaluationList.LazyEvaluationList b e s).end_iter.step = -(s : Int)
        ∧ -(2 ^ 32 - 1) ≤ (LazyEvaluationList.LazyEvaluationList b e s).begin_iter.step
        ∧ (LazyEvaluationList.LazyEvaluationList b e s).begin_iter.step ≤ 0
        ∧ (LazyEvaluationList.LazyEvaluationList b e s).begin_iter.step ≠ 2 ^ 32 - (s : Int)
        ∧ (LazyEvaluationList.LazyEvaluationList b e s).end_iter.step ≠ 2 ^ 32 - (s : Int))
      ∧ (b ≤ e → (LazyEvaluationList.LazyEvaluationList b e s).begin_iter.step = (s : Int)
        ∧ (LazyEvaluationList.LazyEvaluationList b e s).end_iter.step = (s : Int)) := by
  have hs2 : (s : Int) < 2 ^ 32 := by exact_mod_cast hs
  constructor
  · intro h
    have h1 : (LazyEvaluationList.LazyEvaluationList b e s).begin_iter.step = -(s : Int) := by
      simp [LazyEvaluationList.LazyEvaluationList, CounterIterator.CounterIterator, not_le.mpr h]
    have h2 : (LazyEvaluationList.LazyEvaluationList b e s).end_iter.step = -(s : Int) := by
      simp [LazyEvaluationList.LazyEvaluationList, CounterIterator.CounterIterator, not_le.mpr h]
    rw [h1, h2]
    refine ⟨rfl, rfl, ?_, ?_, ?_, ?_⟩ <;> omega
  · intro h
    constructor <;> simp [LazyEvaluationList.LazyEvaluationList, CounterIterator.CounterIterator, h]

/-- Witness of C10: the largest 32-bit magnitude, `2 ^ 32 - 1`, in the descending list
`(1, 0, 2 ^ 32 - 1)`: the stored step is `-(2 ^ 32 - 1)`, not `1`. -/
theorem C10_step_widened_witness :
    (LazyEvaluationList.LazyEvaluationList 1 0 4294967295).begin_iter.step
          = -((4294967295 : Nat) : Int)
      ∧ (LazyEvaluationList.LazyEvaluationList 1 0 4294967295).end_iter.step
          = -((4294967295 : Nat) : Int)
      ∧ -(2 ^ 32 - 1) ≤ (LazyEvaluationList.LazyEvaluationList 1 0 4294967295).begin_iter.step
      ∧ (LazyEvaluationList.LazyEvaluationList 1 0 4294967295).begin_iter.step ≤ 0
      ∧ (LazyEvaluationList.LazyEvaluationList 1 0 4294967295).begin_iter.step
          ≠ 2 ^ 32 - ((4294967295 : Nat) : Int)
      ∧ (LazyEvaluationList.LazyEvaluationList 1 0 4294967295).end_iter.step
          ≠ 2 ^ 32 - ((4294967295 : Nat) : Int) :=
  (C10_step_widened 1 0 4294967295 (by norm_num)).1 (by decide)

/-- C12: `in(begin, end)` is `in(begin, end, 1)`, whose counters carry the step `+1` when
`begin ≤ end` and `-1` otherwise, and `in(begin, end, s)` is
`LazyEvaluationList(begin, end, s)` for every `s`. -/
theorem C12_builder_delegates (b e : Int) :
    in_default b e = in_ b e 1
      ∧ (b ≤ e → in_default b e = ⟨⟨b, 1⟩, ⟨e, 1⟩⟩)
      ∧ (e < b → in_default b e = ⟨⟨b, -1⟩, ⟨e, -1⟩⟩)
      ∧ ∀ s : Nat, in_ b e s = LazyEvaluationList.LazyEvaluationList b e s := by
  refine ⟨rfl, fun h => ?_, fun h => ?_, fun _ => rfl⟩
  · simp [in_default, in_, LazyEvaluationList.LazyEvaluationList, CounterIterator.CounterIterator,
      h]
  · simp [in_default, in_, LazyEvaluationList.LazyEvaluationList, CounterIterator.CounterIterator,
      not_le.mpr h]

/-- Witness of C12: `in(0, 5)` has step `+1` and `in(5, 0)` has step `-1`. -/
theorem C12_builder_delegates_witness :
    in_default 0 5 = ⟨⟨0, 1⟩, ⟨5, 1⟩⟩ ∧ in_default 5 0 = ⟨⟨5, -1⟩, ⟨0, -1⟩⟩ :=
  ⟨(C12_builder_delegates 0 5).2.1 (by decide), (C12_builder_delegates 5 0).2.2.1 (by decide)⟩

/-- C15, as stated, fails: a counter with step `0` compares equal to a boundary at its own
position; the two operands of the exclusive-or are `0 ≤ 0` and `0 < 0`. -/
theorem C15_counterexample :
    CounterIterator.operator_eq ⟨3, 0⟩ ⟨3, 0⟩ = true
      ∧ decide ((3 : Int) - 3 ≤ 0) = true ∧ decide ((3 : Int) - 0 - 3 < 0) = false := by
  decide

/-- C15, amended: with a zero step the comparison is true exactly when the position equals
the boundary position, so it is false for every position other than the boundary. -/
theorem C15_zero_step_comparison (p b bt : Int) :
    (CounterIterator.operator_eq ⟨p, 0⟩ ⟨b, bt⟩ = true ↔ p = b)
      ∧ (p ≠ b → CounterIterator.operator_eq ⟨p, 0⟩ ⟨b, bt⟩ = false) := by
  have h := operator_eq_nonpos p 0 b bt (le_refl 0)
  constructor
  · rw [h]; omega
  · intro hne
    rw [Bool.eq_false_iff, Ne, h]
    omega

/-- Witness of C15: the counter at `4` with step `0` against the boundary `3`. -/
theorem C15_zero_step_comparison_witness :
    CounterIterator.operator_eq ⟨4, 0⟩ ⟨3, 0⟩ = false :=
  (C15_zero_step_comparison 4 3 0).2 (by decide)

/-- C16: the comparison is not symmetric: the counters at `1` and `0` with the common step
`1` compare equal in one order and unequal in the other. -/
theorem C16_not_symmetric :
    (CounterIterator.operator_eq ⟨1, 1⟩ ⟨0, 1⟩ = true
        ∧ CounterIterator.operator_eq ⟨0, 1⟩ ⟨1, 1⟩ = false)
      ∧ ∃ a b : CounterIterator, a.step = b.step ∧ a.step ≠ 0
          ∧ a.operator_eq b = true ∧ b.operator_eq a = false :=
  ⟨by decide, ⟨1, 1⟩, ⟨0, 1⟩, by decide⟩

/-- C14, as stated, fails: the begin counter of `in(0, 1, 1)` compares equal to the end
counter after one advance and again after two advances, over the integers and in the
64-bit model alike. -/
theorem C14_counterexample :
    (CounterIterator.operator_inc^[1] (in_ 0 1 1).begin).operator_eq (in_ 0 1 1).end_ = true
      ∧ (CounterIterator.operator_inc^[2] (in_ 0 1 1).begin).operator_eq (in_ 0 1 1).end_ = true
      ∧ (CounterIterator.operator_inc64^[1] (in_ 0 1 1).begin).operator_eq64 (in_ 0 1 1).end_
          = true
      ∧ (CounterIterator.operator_inc64^[2] (in_ 0 1 1).begin).operator_eq64 (in_ 0 1 1).end_
          = true := by
  decide

/-- C14, amended: for 64-bit `begin` and `end` and a step magnitude `1 ≤ s < 2 ^ 32`, among
the advance counts `k` for which neither the `k` advances of the begin counter of
`in(begin, end, s)` nor its comparison with the end counter after them overflows the 64-bit
counter, those at which it compares equal are `k0 = ⌈|end - begin| / s⌉` and, exactly when
`s` divides `end - begin`, also `k0 + 1`; for every such `k > k0 + 1` it compares unequal. -/
theorem C14_equal_window (b e : Int) (s : Nat) (_hb : representable64 b)
    (_he : representable64 e) (_hs32 : s < 2 ^ 32) (hs : 1 ≤ s) :
    ∃ k0 : Nat, (k0 : Int) = ⌈((|e - b| : Int) : ℚ) / (s : ℚ)⌉
      ∧ ∀ k : Nat,
          (∀ j : Nat, j < k →
            ∀ a ∈ (CounterIterator.operator_inc64^[j] (in_ b e s).begin).operator_inc64_arith,
              representable64 a) →
          (∀ x ∈ (CounterIterator.operator_inc64^[k] (in_ b e s).begin).operator_eq64_arith
              (in_ b e s).end_, representable64 x) →
          ((CounterIterator.operator_inc64^[k] (in_ b e s).begin).operator_eq64 (in_ b e s).end_
              = true ↔ (k = k0 ∨ (k = k0 + 1 ∧ (s : Int) ∣ (e - b))))
            ∧ (k0 + 1 < k →
              (CounterIterator.operator_inc64^[k] (in_ b e s).begin).operator_eq64
                (in_ b e s).end_ = false) := by
  obtain ⟨k0, hk0, hiff, hgt⟩ := equal_window_int b e s hs
  refine ⟨k0, hk0, fun k hadd hsub => ?_⟩
  have h64 := operator_eq64_of_representable _ _ hsub
  rw [h64, operator_inc64_iterate _ k hadd]
  exact ⟨hiff k, hgt k⟩

/-- Witness of C14: in the 64-bit model the begin counter of `in(0, 10, 3)` compares equal
to the end counter after `4` advances, and neither these advances nor the comparison
overflow. -/
theorem C14_equal_window_witness :
    (∀ j : Nat, j < 4 →
        ∀ a ∈ (CounterIterator.operator_inc64^[j] (in_ 0 10 3).begin).operator_inc64_arith,
          representable64 a)
      ∧ (∀ x ∈ (CounterIterator.operator_inc64^[4] (in_ 0 10 3).begin).operator_eq64_arith
          (in_ 0 10 3).end_, representable64 x)
      ∧ (CounterIterator.operator_inc64^[4] (in_ 0 10 3).begin).operator_eq64 (in_ 0 10 3).end_
          = true := by
  have hadd : ∀ j : Nat, j < 4 →
      ∀ a ∈ (CounterIterator.operator_inc64^[j] (in_ 0 10 3).begin).operator_inc64_arith,
        representable64 a := by decide
  have hsub : ∀ x ∈ (CounterIterator.operator_inc64^[4] (in_ 0 10 3).begin).operator_eq64_arith
      (in_ 0 10 3).end_, representable64 x := by decide
  obtain ⟨k0, hk, h⟩ :=
    C14_equal_window 0 10 3 (by decide) (by decide) (by decide) (by decide)
  have hc : ⌈((|(10 : Int) - 0| : Int) : ℚ) / ((3 : Nat) : ℚ)⌉ = 4 := by
    rw [Int.ceil_eq_iff]; norm_num
  rw [hc] at hk
  have hk4 : k0 = 4 := by exact_mod_cast hk
  subst hk4
  exact ⟨hadd, hsub, ((h 4 hadd hsub).1).mpr (Or.inl rfl)⟩

/-- C18, as stated, fails for the 64-bit counter: the comparison of `(-2 ^ 62, 1)` with
`(2 ^ 62, 1)` is true and that of the mirrored counters `(2 ^ 62, -1)`, `(-2 ^ 62, -1)` is
false; the loop over `in(-2 ^ 62, 2 ^ 62, 1)` reads nothing while the loop over its mirror
image `in(2 ^ 62, -2 ^ 62, 1)` reads `2 ^ 62`. -/
theorem C18_counterexample :
    CounterIterator.operator_eq64 ⟨-2 ^ 62, 1⟩ ⟨2 ^ 62, 1⟩ = true
      ∧ CounterIterator.operator_eq64 ⟨-(-2 ^ 62), -1⟩ ⟨-(2 ^ 62), -1⟩ = false
      ∧ ((in_ (-2 ^ 62) (2 ^ 62) 1).iterate64 2).map Prod.fst = some []
      ∧ ((in_ (-(-2 ^ 62)) (-(2 ^ 62)) 1).iterate64 2).map (fun r => r.1.map (fun v => -v))
          = some [-2 ^ 62] := by
  decide

/-- C18, amended: within the range of the 64-bit counter, when the mirrored values exist and
neither comparison overflows, the comparison of `(p, t)` with `(b, t)` has the truth value
of the comparison of `(-p, -t)` with `(-b, -t)`; and for a step magnitude `1 ≤ s < 2 ^ 32`,
when `-begin` and `-end` exist and neither loop overflows, the loop over
`in(begin, end, s)` reads the negations of the values read by the loop over
`in(-begin, -end, s)`. -/
theorem C18_mirror (p t bd b e : Int) (s : Nat)
    (_hp : representable64 p ∧ representable64 (-p))
    (_ht : representable64 t ∧ representable64 (-t))
    (_hbd : representable64 bd ∧ representable64 (-bd))
    (_hb : representable64 b ∧ representable64 (-b))
    (_he : representable64 e ∧ representable64 (-e)) (_hs32 : s < 2 ^ 32) :
    ((∀ x ∈ CounterIterator.operator_eq64_arith ⟨p, t⟩ ⟨bd, t⟩, representable64 x) →
        (∀ x ∈ CounterIterator.operator_eq64_arith ⟨-p, -t⟩ ⟨-bd, -t⟩, representable64 x) →
        CounterIterator.operator_eq64 ⟨p, t⟩ ⟨bd, t⟩
          = CounterIterator.operator_eq64 ⟨-p, -t⟩ ⟨-bd, -t⟩)
      ∧ (1 ≤ s → ∀ fuel : Nat,
          (in_ b e s).noOverflow64 fuel → (in_ (-b) (-e) s).noOverflow64 fuel →
          ((in_ b e s).iterate64 fuel).map Prod.fst
            = ((in_ (-b) (-e) s).iterate64 fuel).map (fun r => r.1.map (fun v => -v))) := by
  refine ⟨fun h1 h2 => ?_, fun hs fuel h1 h2 => ?_⟩
  · rw [operator_eq64_of_representable _ _ h1, operator_eq64_of_representable _ _ h2]
    exact operator_eq_neg p t bd
  · rw [iterate64_of_noOverflow _ fuel h1, iterate64_of_noOverflow _ fuel h2]
    exact iterate_neg b e s hs fuel

/-- Witness of C18: the comparison of `(12, 3)` with `(10, 3)` and of `(-12, -3)` with
`(-10, -3)`, and the loops over `in(0, 10, 3)` and `in(0, -10, 3)`, in the 64-bit model. -/
theorem C18_mirror_witness :
    CounterIterator.operator_eq64 ⟨12, 3⟩ ⟨10, 3⟩
        = CounterIterator.operator_eq64 ⟨-12, -3⟩ ⟨-10, -3⟩
      ∧ ((in_ 0 10 3).iterate64 5).map Prod.fst
          = ((in_ (-0) (-10) 3).iterate64 5).map (fun r => r.1.map (fun v => -v)) :=
  ⟨(C18_mirror 12 3 10 0 10 3 (by decide) (by decide) (by decide) (by decide) (by decide)
      (by decide)).1 (by decide) (by decide),
    (C18_mirror 12 3 10 0 10 3 (by decide) (by decide) (by decide) (by decide) (by decide)
      (by decide)).2 (by decide) 5 (by decide) (by decide)⟩

/-- C13, as stated, fails: in the 64-bit model the loop over `in(-2 ^ 63, -2 ^ 63 + 1, 1)`
stops within two evaluations of its condition and the only position its advance computes,
`-2 ^ 63 + 1`, is representable, but its first comparison computes
`number - step = -2 ^ 63 - 1`, which is not. -/
theorem C13_counterexample :
    representable64 (-2 ^ 63) ∧ representable64 (-2 ^ 63 + 1)
      ∧ ((in_ (-2 ^ 63) (-2 ^ 63 + 1) 1).iterate64 2).isSome = true
      ∧ (∀ a ∈ ((in_ (-2 ^ 63) (-2 ^ 63 + 1) 1).iterateArith64 2).1, representable64 a)
      ∧ (-2 ^ 63 - 1) ∈ ((in_ (-2 ^ 63) (-2 ^ 63 + 1) 1).iterateArith64 2).2
      ∧ ¬ representable64 (-2 ^ 63 - 1) := by
  decide

/-- C13, amended: in the 64-bit model, for 64-bit `begin` and `end` and a step magnitude
`1 ≤ s < 2 ^ 32`, when every position computed by the advances of the loop over
`in(begin, end, s)` is representable and the three subtractions of its first comparison
(`begin - end`, `begin - step`, `begin - step - end`) are representable, every subtraction
of every comparison of the loop is representable, and the loop is the loop over the
integers. This holds for the run with any amount of fuel. -/
theorem C13_comparison_overflow (b e : Int) (s : Nat) (_hb : representable64 b)
    (he : representable64 e) (hs1 : 1 ≤ s) (hs : s < 2 ^ 32) (fuel : Nat)
    (hpos : ∀ a ∈ ((in_ b e s).iterateArith64 fuel).1, representable64 a)
    (hfirst : ∀ x ∈ (in_ b e s).begin.operator_eq64_arith (in_ b e s).end_, representable64 x) :
    (∀ x ∈ ((in_ b e s).iterateArith64 fuel).2, representable64 x)
      ∧ (in_ b e s).iterate64 fuel = (in_ b e s).iterate fuel := by
  have hs0 : (0 : Int) < s := by exact_mod_cast hs1
  have hs32 : (s : Int) < 2 ^ 32 := by exact_mod_cast hs
  simp only [LazyEvaluationList.iterateArith64, LazyEvaluationList.iterate64,
    LazyEvaluationList.iterate, in_begin, in_end] at hpos hfirst ⊢
  rcases le_or_lt b e with hbe | hbe
  · simp only [if_pos hbe] at hpos hfirst ⊢
    have r2 : representable64 (b - s) := hfirst _ (by simp [CounterIterator.operator_eq64_arith])
    have r3 : representable64 (wrap64 (b - s) - e) :=
      hfirst _ (by simp [CounterIterator.operator_eq64_arith])
    rw [wrap64_of_representable _ r2] at r3
    exact arith64_asc e s s b hs0 (by omega) he r2.1 r3.1 fuel b (le_refl b) (by omega) hpos
  · simp only [if_neg (not_le.mpr hbe)] at hpos hfirst ⊢
    have r2 : representable64 (b - -(s : Int)) :=
      hfirst _ (by simp [CounterIterator.operator_eq64_arith])
    have r3 : representable64 (wrap64 (b - -(s : Int)) - e) :=
      hfirst _ (by simp [CounterIterator.operator_eq64_arith])
    rw [wrap64_of_representable _ r2] at r3
    exact arith64_desc e (-(s : Int)) (-(s : Int)) b (by omega) (by omega) he r2.2 r3.2 fuel b
      (le_refl b) (by omega) hpos

/-- Witness of C13: the loop over `in(0, 10, 3)` in the 64-bit model. -/
theorem C13_comparison_overflow_witness :
    (∀ x ∈ ((in_ 0 10 3).iterateArith64 5).2, representable64 x)
      ∧ (in_ 0 10 3).iterate64 5 = (in_ 0 10 3).iterate 5 :=
  C13_comparison_overflow 0 10 3 (by decide) (by decide) (by decide) (by decide) 5 (by decide)
    (by decide)

/-- C19, as stated, fails at the corner of the envelope: for `in(-2 ^ 62, 2 ^ 62, 1)` the
first comparison computes `number - step - another.number = -2 ^ 63 - 1`, which is not
representable; in the 64-bit model the loop stops at once with no value read, while over
the integers the first comparison is false and the loop never returns an empty list. -/
theorem C19_counterexample :
    (-2 ^ 63 - 1) ∈ ((in_ (-2 ^ 62) (2 ^ 62) 1).iterateArith64 1).2
      ∧ ¬ representable64 (-2 ^ 63 - 1)
      ∧ (in_ (-2 ^ 62) (2 ^ 62) 1).iterate64 1 = some ([], ⟨-2 ^ 62, 1⟩)
      ∧ (in_ (-2 ^ 62) (2 ^ 62) 1).iterate 1 = none
      ∧ ∀ fuel : Nat, ((in_ (-2 ^ 62) (2 ^ 62) 1).iterate fuel).map Prod.fst ≠ some [] := by
  refine ⟨by decide, by decide, by decide, by decide, fun fuel => ?_⟩
  have hne : (in_ (-2 ^ 62) (2 ^ 62) 1).begin.operator_ne (in_ (-2 ^ 62) (2 ^ 62) 1).end_ = true := by
    decide
  cases fuel with
  | zero => simp [LazyEvaluationList.iterate, rangeFor]
  | succ f =>
    simp only [LazyEvaluationList.iterate, rangeFor, hne, if_true]
    cases rangeFor f (in_ (-2 ^ 62) (2 ^ 62) 1).begin.operator_inc (in_ (-2 ^ 62) (2 ^ 62) 1).end_ with
    | none => simp
    | some r => simp

/-- C19, amended: in the 64-bit model with wraparound, for `-2 ^ 62 ≤ begin, end ≤ 2 ^ 62`
and a step magnitude `1 ≤ s < 2 ^ 32`, every addition of the advances and every subtraction
of the comparisons of the loop over `in(begin, end, s)` is within `[-2 ^ 63, 2 ^ 63 - 1]`
exactly when `(end - begin) + s ≤ 2 ^ 63` for `begin ≤ end`, and
`(begin - end) + s ≤ 2 ^ 63 - 1` for `begin > end`: under this bound nothing overflows with
any amount of fuel and the loop returns what the loop over the integers returns, and
without it already the first comparison overflows. -/
theorem C19_overflow_free_envelope (b e : Int) (s : Nat) (hb : -2 ^ 62 ≤ b ∧ b ≤ 2 ^ 62)
    (he : -2 ^ 62 ≤ e ∧ e ≤ 2 ^ 62) (hs1 : 1 ≤ s) (hs : s < 2 ^ 32) :
    (((b ≤ e → e - b + (s : Int) ≤ 2 ^ 63) ∧ (e < b → b - e + (s : Int) ≤ 2 ^ 63 - 1)) →
        ∀ fuel : Nat, (in_ b e s).noOverflow64 fuel
          ∧ (in_ b e s).iterate64 fuel = (in_ b e s).iterate fuel)
      ∧ ((in_ b e s).noOverflow64 1 →
          (b ≤ e → e - b + (s : Int) ≤ 2 ^ 63) ∧ (e < b → b - e + (s : Int) ≤ 2 ^ 63 - 1)) := by
  have hs0 : (0 : Int) < s := by exact_mod_cast hs1
  have hs32 : (s : Int) < 2 ^ 32 := by exact_mod_cast hs
  have hre : representable64 e := ⟨by omega, by omega⟩
  constructor
  · rintro ⟨hasc, hdesc⟩ fuel
    simp only [LazyEvaluationList.noOverflow64, LazyEvaluationList.iterateArith64,
      LazyEvaluationList.iterate64, LazyEvaluationList.iterate, in_begin, in_end]
    rcases le_or_lt b e with hbe | hbe
    · have hd := hasc hbe
      simp only [if_pos hbe]
      have hadds := adds64_asc e s s b hs0 (by omega) hre (by omega) (by omega) (by omega) fuel
        b (le_refl b) (by omega)
      have hrest := arith64_asc e s s b hs0 (by omega) hre (by omega) (by omega) fuel b
        (le_refl b) (by omega) hadds
      exact ⟨⟨hadds, hrest.1⟩, hrest.2⟩
    · have hd := hdesc hbe
      simp only [if_neg (not_le.mpr hbe)]
      have hadds := adds64_desc e (-(s : Int)) (-(s : Int)) b (by omega) (by omega) hre
        (by omega) (by omega) (by omega) fuel b (le_refl b) (by omega)
      have hrest := arith64_desc e (-(s : Int)) (-(s : Int)) b (by omega) (by omega) hre
        (by omega) (by omega) fuel b (le_refl b) (by omega) hadds
      exact ⟨⟨hadds, hrest.1⟩, hrest.2⟩
  · intro hno
    have hfirst : ∀ x ∈ (in_ b e s).begin.operator_eq64_arith (in_ b e s).end_,
        representable64 x := by
      intro x hx
      apply hno.2
      simp only [LazyEvaluationList.iterateArith64, rangeForArith64]
      split
      · exact List.mem_append_left _ hx
      · exact hx
    simp only [in_begin, in_end] at hfirst
    rcases le_or_lt b e with hbe | hbe
    · simp only [if_pos hbe] at hfirst
      have r2 : representable64 (b - s) :=
        hfirst _ (by simp [CounterIterator.operator_eq64_arith])
      have r3 : representable64 (wrap64 (b - s) - e) :=
        hfirst _ (by simp [CounterIterator.operator_eq64_arith])
      rw [wrap64_of_representable _ r2] at r3
      have := r3.1
      exact ⟨fun _ => by omega, fun h => absurd hbe (not_le.mpr h)⟩
    · simp only [if_neg (not_le.mpr hbe)] at hfirst
      have r2 : representable64 (b - -(s : Int)) :=
        hfirst _ (by simp [CounterIterator.operator_eq64_arith])
      have r3 : representable64 (wrap64 (b - -(s : Int)) - e) :=
        hfirst _ (by simp [CounterIterator.operator_eq64_arith])
      rw [wrap64_of_representable _ r2] at r3
      have := r3.2
      exact ⟨fun h => absurd hbe (not_lt.mpr h), fun _ => by omega⟩

/-- Witness of C19: the ascending range `in(-2 ^ 62, 2 ^ 62 - 1, 1)`, whose distance plus
step is exactly `2 ^ 63`: nothing overflows and the loop in the 64-bit model is the loop
over the integers, with every amount of fuel. -/
theorem C19_overflow_free_envelope_witness :
    ((2 ^ 62 - 1 : Int) - (-2 ^ 62) + ((1 : Nat) : Int) = 2 ^ 63)
      ∧ ∀ fuel : Nat, (in_ (-2 ^ 62) (2 ^ 62 - 1) 1).noOverflow64 fuel
          ∧ (in_ (-2 ^ 62) (2 ^ 62 - 1) 1).iterate64 fuel
              = (in_ (-2 ^ 62) (2 ^ 62 - 1) 1).iterate fuel :=
  ⟨by decide,
    (C19_overflow_free_envelope (-2 ^ 62) (2 ^ 62 - 1) 1 (by decide) (by decide) (by decide)
      (by decide)).1 ⟨fun _ => by decide, fun h => absurd h (by decide)⟩⟩

end inrange
